import Mathlib

/-!
Verification of the price-tracker core: the resilient HTTP fetch layer
(`src/http_client.py`), the price normalizer (`src/scraper/phoneclick.py`'s
`parse_price` and the inline Amazon normalization), and the three site
extractors (`scrape_amazon`, `scrape_phoneclick`, `scrape_teknozone`).

The Python code is embedded shallowly: strings become `List Char`,
`decimal.Decimal` values become exact coefficient/scale pairs, fallible
conversions become `Option`,
and the tenacity retry loop becomes an explicit recursion over a stream of
per-attempt network results.
-/

namespace PriceTracker

/-! # Definitions -/

/-! ## Fetch layer (`src/http_client.py`)

`HTTPClient.fetch` is decorated with
`retry(stop=stop_after_attempt(RETRIES), wait=wait_exponential(multiplier=1, min=1, max=10),
retry=retry_if_exception_type((aiohttp.ClientError, asyncio.TimeoutError)))`
and its body performs a GET and then `resp.raise_for_status()`.

The exceptions that can reach tenacity are modelled by `PyErr`.  In aiohttp's
exception hierarchy, `ClientResponseError` (raised by `raise_for_status` for a
status ≥ 400) and `ClientConnectionError` are both subclasses of
`ClientError`; `asyncio.TimeoutError` is separate.  `isinstance` checks
against `aiohttp.ClientError` therefore succeed for both of the first two. -/

/-- Exceptions that `HTTPClient.fetch`'s body can raise. -/
inductive PyErr where
  /-- `aiohttp.ClientResponseError`, raised by `resp.raise_for_status()`
  when the HTTP status is ≥ 400. -/
  | clientResponseError (status : Nat)
  /-- An `aiohttp.ClientConnectionError` (connection failure). -/
  | clientConnError
  /-- `asyncio.TimeoutError`. -/
  | timeoutErr
  deriving DecidableEq, Repr

/-- Python's `isinstance(e, aiohttp.ClientError)`: in aiohttp, both
`ClientResponseError` and `ClientConnectionError` subclass `ClientError`. -/
def isClientError : PyErr → Bool
  | .clientResponseError _ => true
  | .clientConnError => true
  | .timeoutErr => false

/-- Python's `isinstance(e, asyncio.TimeoutError)`. -/
def isTimeoutError : PyErr → Bool
  | .timeoutErr => true
  | _ => false

/-- The decorator's retry condition:
`retry_if_exception_type((aiohttp.ClientError, asyncio.TimeoutError))`. -/
def retryPred (e : PyErr) : Bool := isClientError e || isTimeoutError e

/-- What the network does on one attempt: deliver a response with a status
and body, fail to connect, or time out. -/
inductive AttemptResult where
  | response (status : Nat) (body : String)
  | connFail
  | timeout
  deriving DecidableEq, Repr

/-- One execution of `fetch`'s body given the network's behaviour for that
attempt: `session.get` may raise a connection/timeout error, and a delivered
response goes through `resp.raise_for_status()`, which raises
`ClientResponseError` exactly when the status is ≥ 400. -/
def runAttempt : AttemptResult → Except PyErr String
  | .response st b => if 400 ≤ st then .error (.clientResponseError st) else .ok b
  | .connFail => .error .clientConnError
  | .timeout => .error .timeoutErr

/-- Result of the whole decorated `fetch` call: a body, an exception
re-raised directly (retry condition false), or a tenacity `RetryError`
wrapping the last attempt's exception (stop condition reached). -/
inductive FetchOutcome where
  | ok (body : String)
  | raised (e : PyErr)
  | retryErr (last : PyErr)
  deriving DecidableEq, Repr

/-- tenacity's `wait_exponential(multiplier, min, max, exp_base=2)` evaluated
at a given (1-based) attempt number:
`max(max(0, min), min(multiplier * 2**(attempt_number - 1), max))`. -/
def waitExponential (multiplier lo hi expBase attempt : Nat) : Nat :=
  max (max 0 lo) (min (multiplier * expBase ^ (attempt - 1)) hi)

/-- The wait configured on `HTTPClient.fetch`:
`wait_exponential(multiplier=1, min=1, max=10)`. -/
def fetchWait (attempt : Nat) : Nat := waitExponential 1 1 10 2 attempt

/-- tenacity's retry loop (`BaseRetrying.iter`), specialised to the
decorator on `HTTPClient.fetch`.  `attemptNum` is the 1-based number of the
attempt about to run, `remaining` the number of further attempts the stop
condition `stop_after_attempt` still allows.  Returns the outcome, the
number of the last attempt run, and the backoff delays slept between
attempts (each computed by `fetchWait` at the failing attempt's number). -/
def fetchGo (env : Nat → AttemptResult) : Nat → Nat → FetchOutcome × Nat × List Nat
  | attemptNum, remaining =>
    match runAttempt (env attemptNum) with
    | .ok b => (.ok b, attemptNum, [])
    | .error e =>
      if retryPred e = false then (.raised e, attemptNum, [])
      else
        match remaining with
        | 0 => (.retryErr e, attemptNum, [])
        | r + 1 =>
          let rest := fetchGo env (attemptNum + 1) r
          (rest.1, rest.2.1, fetchWait attemptNum :: rest.2.2)

/-- The decorated `fetch` call: attempts are numbered from 1 and
`stop_after_attempt(maxAttempts)` stops once the attempt number reaches
`maxAttempts` (`config.RETRIES`, default 3). -/
def fetch (env : Nat → AttemptResult) (maxAttempts : Nat) : FetchOutcome × Nat × List Nat :=
  fetchGo env 1 (maxAttempts - 1)

/-! ## Price normalizer (`src/scraper/phoneclick.py`)

`PRICE_REGEX = re.compile(r"(\d{1,3}(?:\.\d{3})*,\d{2})")` and
`parse_price` are embedded below.  The regex engine is modelled directly
for this one pattern, with Python's leftmost search, greedy quantifiers
and backtracking. -/

/-- Matches `,\d{2}` at the start of the input, returning the consumed
characters and the remainder. -/
def tryComma : List Char → Option (List Char × List Char)
  | ',' :: d1 :: d2 :: rest =>
    if d1.isDigit && d2.isDigit then some ([',', d1, d2], rest) else none
  | _ => none

/-- Matches `(?:\.\d{3})*,\d{2}` at the start of the input with Python's
greedy backtracking: first try to consume a `.\d{3}` group and continue;
on failure fall back to matching `,\d{2}` right here. -/
def starComma : List Char → Option (List Char × List Char)
  | '.' :: d1 :: d2 :: d3 :: rest =>
    if d1.isDigit && d2.isDigit && d3.isDigit then
      match starComma rest with
      | some (m, r) => some ('.' :: d1 :: d2 :: d3 :: m, r)
      | none => tryComma ('.' :: d1 :: d2 :: d3 :: rest)
    else tryComma ('.' :: d1 :: d2 :: d3 :: rest)
  | cs => tryComma cs

/-- Tries to match `\d{n}` (exactly `n` leading digits) followed by
`(?:\.\d{3})*,\d{2}`. -/
def tryLead (n : Nat) (cs : List Char) : Option (List Char × List Char) :=
  if (cs.take n).length = n && (cs.take n).all Char.isDigit then
    match starComma (cs.drop n) with
    | some (m, r) => some (cs.take n ++ m, r)
    | none => none
  else none

/-- Matches `PRICE_REGEX` at the start of the input: `\d{1,3}` is greedy,
so three leading digits are tried first, then two, then one. -/
def matchFrom (cs : List Char) : Option (List Char × List Char) :=
  (tryLead 3 cs).orElse fun _ => (tryLead 2 cs).orElse fun _ => tryLead 1 cs

/-- Model of `re.findall` for `PRICE_REGEX`, fuelled so that the kernel can
evaluate it: scan left to right, at each position try a match; on success
emit it and continue after its end (non-overlapping), else advance one
character. -/
def findallGo : Nat → List Char → List (List Char)
  | 0, _ => []
  | _ + 1, [] => []
  | fuel + 1, c :: cs =>
    match matchFrom (c :: cs) with
    | some (m, r) => m :: findallGo fuel r
    | none => findallGo fuel cs

/-- Model of `PRICE_REGEX.findall`. -/
def findall (cs : List Char) : List (List Char) := findallGo cs.length cs

/-! ### Text cleaning and `decimal.Decimal` -/

/-- Model of `text.replace(" ", " ")`. -/
def nbspToSpace (c : Char) : Char := if c = ' ' then ' ' else c

/-- Model of `text.replace("&nbsp;", " ")`: Python's left-to-right, non-overlapping
substring replacement, for this fixed pattern. -/
def replaceNbsp : List Char → List Char
  | '&' :: 'n' :: 'b' :: 's' :: 'p' :: ';' :: rest => ' ' :: replaceNbsp rest
  | c :: rest => c :: replaceNbsp rest
  | [] => []

/-- Model of `str.strip()`: drop leading and trailing whitespace. -/
def pyStrip (cs : List Char) : List Char :=
  ((cs.dropWhile Char.isWhitespace).reverse.dropWhile Char.isWhitespace).reverse

/-- The cleaning in `parse_price`:
`text.replace(" ", " ").replace("&nbsp;", " ").strip()`. -/
def cleanText (cs : List Char) : List Char :=
  pyStrip (replaceNbsp (cs.map nbspToSpace))

/-- Split at the first `'.'`: the characters before it, and — when a dot
exists — the characters after it. -/
def splitDot : List Char → List Char × Option (List Char)
  | [] => ([], none)
  | c :: rest =>
    if c = '.' then ([], some rest)
    else
      let p := splitDot rest
      (c :: p.1, p.2)

/-- Numeric value of a digit character. -/
def digitVal (c : Char) : Nat := c.toNat - '0'.toNat

/-- Value of a digit string, most significant first. -/
def natOfDigits (cs : List Char) : Nat :=
  cs.foldl (fun acc c => 10 * acc + digitVal c) 0

/-- A non-negative `decimal.Decimal` value, kept as Python keeps it: an
unscaled integer coefficient and a decimal scale, denoting
`num / 10 ^ scale`.  (Every `Decimal` built by this program is
non-negative: its inputs contain only digits and separators.) -/
structure Dec where
  num : Nat
  scale : Nat
  deriving DecidableEq, Repr

/-- The rational value a `Dec` denotes. -/
def Dec.toRat (d : Dec) : ℚ := (d.num : ℚ) / (10 : ℚ) ^ d.scale

/-- Python's numeric comparison `a < b` on decimals. -/
def Dec.lt (a b : Dec) : Bool := a.num * 10 ^ b.scale < b.num * 10 ^ a.scale

/-- Model of `decimal.Decimal(s)` on the strings reachable in this program (built
from digits, `'.'` and `','` only): it succeeds exactly on a non-empty
string of digits with at most one `'.'` and at least one digit, and
returns the exact decimal value; anything else raises
`InvalidOperation`, modelled as `none`. -/
def pyDecimal? (cs : List Char) : Option Dec :=
  match splitDot cs with
  | (ip, none) =>
    if !ip.isEmpty && ip.all Char.isDigit then some ⟨natOfDigits ip, 0⟩ else none
  | (ip, some fp) =>
    if !fp.contains '.' && !(ip ++ fp).isEmpty && (ip ++ fp).all Char.isDigit then
      some ⟨natOfDigits ip * 10 ^ fp.length + natOfDigits fp, fp.length⟩
    else none

/-- The normalization `raw.replace(".", "").replace(",", ".")` in `parse_price`. -/
def normalizeEuroMatch (m : List Char) : List Char :=
  (m.filter (fun c => c != '.')).map (fun c => if c = ',' then '.' else c)

/-- The conversion `Decimal(raw.replace(".", "").replace(",", "."))`, with `InvalidOperation`
mapped to `none`. -/
def decimalOfMatch (m : List Char) : Option Dec := pyDecimal? (normalizeEuroMatch m)

/-- The `for raw_price_str in reversed(matches)` loop of `parse_price`:
return the first successfully converted value under 1000; failed
conversions and values ≥ 1000 are skipped. -/
def parsePriceLoop : List (List Char) → Option Dec
  | [] => none
  | m :: rest =>
    match decimalOfMatch m with
    | some v => if v.lt ⟨1000, 0⟩ then some v else parsePriceLoop rest
    | none => parsePriceLoop rest

/-- Model of `parse_price` (src/scraper/phoneclick.py lines 15-59): clean the text,
find all `PRICE_REGEX` matches, scan them in reverse for the first value
under 1000, and otherwise fall back to the very last match's value (or
`None` when it does not convert or nothing matched). -/
def parse_price (text : List Char) : Option Dec :=
  let ms := findall (cleanText text)
  match ms.getLast? with
  | none => none
  | some lastM =>
    match parsePriceLoop ms.reverse with
    | some v => some v
    | none => decimalOfMatch lastM

/-! ## Output formatting

`f"€{dec:.2f}"`: Python renders a `Decimal` with exactly two decimal
digits, rounding with `ROUND_HALF_EVEN`. -/

/-- Round a non-negative decimal to an integer number of cents with
Python's half-even rounding. -/
def round2 (d : Dec) : Nat :=
  if d.scale ≤ 2 then d.num * 10 ^ (2 - d.scale)
  else
    let p := 10 ^ (d.scale - 2)
    let q := d.num / p
    let r := d.num % p
    if 2 * r < p then q
    else if p < 2 * r then q + 1
    else if q % 2 = 0 then q else q + 1

/-- Two-digit zero-padded rendering of `k < 100`. -/
def twoDigitPad (k : Nat) : String :=
  (if k < 10 then "0" else "") ++ toString k

/-- Model of `f"{dec:.2f}"` for the non-negative decimals this program builds. -/
def formatDot2 (d : Dec) : String :=
  toString (round2 d / 100) ++ "." ++ twoDigitPad (round2 d % 100)

/-! ## Extractors

BeautifulSoup itself is external; each soup structure records the results
of exactly the queries the extractor performs on the parsed markup: for
each selector, the text of the first matching element (`None` when no
element matches), plus — for phoneclick — the page's stripped strings and
— for teknozone — the texts of the `strong`/`span` elements containing
`€`.  Element truthiness in BeautifulSoup is element presence, so `found
or fallback` selects by presence even when the found element's text is
empty. -/

/-- One entry of `config.SCRAPERS`. -/
structure SiteConfig where
  site : String
  url : String
  deriving DecidableEq, Repr

/-- The record each scraper returns. -/
structure ProductRecord where
  site : String
  title : String
  price : String
  url : String
  deriving DecidableEq, Repr

/-- Python truthiness of an optional string (`None` and `""` are falsy). -/
def strTruthy : Option String → Bool
  | none => false
  | some s => !s.isEmpty

/-! ### `scrape_phoneclick` (src/scraper/phoneclick.py lines 62-124) -/

/-- The queries `scrape_phoneclick` makes on the parsed page. -/
structure PhoneclickSoup where
  /-- Stripped text of the first `h1.caratteretitolo`, if present. -/
  h1Caratteretitolo : Option String
  /-- Stripped text of the first `h1`, if present. -/
  h1 : Option String
  /-- `get_text()` of the first `ins` element, if present. -/
  insText : Option String
  /-- `soup.stripped_strings`. -/
  strippedStrings : List String
  deriving Repr

/-- Title resolution of `scrape_phoneclick`: element presence decides
(`find("h1", class_="caratteretitolo") or find("h1")`), the chosen
element's text is used even when empty. -/
def phoneclickTitle (s : PhoneclickSoup) : String :=
  match s.h1Caratteretitolo.orElse fun _ => s.h1 with
  | some t => t
  | none => "Title not found"

/-- Price resolution of `scrape_phoneclick`: `parse_price` on the `ins`
element's text, else the last parsable `€`-bearing stripped string. -/
def phoneclickPriceOpt (s : PhoneclickSoup) : Option Dec :=
  match (match s.insText with | some t => parse_price t.toList | none => none) with
  | some v => some v
  | none =>
    ((s.strippedStrings.filter (fun t => t.toList.contains '€')).filterMap
      (fun t => parse_price t.toList)).getLast?

/-- The post-fetch part of `scrape_phoneclick`. -/
def scrape_phoneclick (cfg : SiteConfig) (s : PhoneclickSoup) : ProductRecord :=
  { site := cfg.site
    title := phoneclickTitle s
    price := match phoneclickPriceOpt s with
      | some v => "€" ++ formatDot2 v
      | none => "Price not found"
    url := cfg.url }

/-! ### `scrape_amazon` (src/scraper/amazon.py) -/

/-- The queries `scrape_amazon` makes on the parsed page. -/
structure AmazonSoup where
  /-- Stripped text of `span#productTitle`, if present. -/
  productTitleSpan : Option String
  /-- Stripped text of the first `h1`, if present. -/
  h1 : Option String
  /-- The raw `content` attribute of `meta[property=og:title]`, when that
  element exists and carries the attribute. -/
  ogTitleContent : Option String
  /-- Stripped text of the `title` element, if present. -/
  titleTag : Option String
  /-- Stripped text of `span.a-price > span.a-offscreen`, if present. -/
  offscreenPrimary : Option String
  /-- Stripped text of
  `#corePrice_desktop span.a-offscreen, #priceblock_ourprice span.a-offscreen`. -/
  offscreenCore : Option String
  /-- Stripped text of any `span.a-offscreen`, if present. -/
  offscreenAny : Option String
  deriving Repr

/-- The delimiter class of `re.split(r"[:\|\-–]", raw_head)`. -/
def titleDelim (c : Char) : Bool := c = ':' || c = '|' || c = '-' || c = '–'

/-- The four-strategy title fallback chain of `scrape_amazon`: each later
strategy runs only when the title so far is `None` or empty (`if not
title`), and the final guard replaces an empty result with the sentinel. -/
def amazonTitleChain (s : AmazonSoup) : Option String :=
  let t1 : Option String := s.productTitleSpan
  let t2 := if strTruthy t1 then t1 else
    match s.h1 with
    | some txt => some txt
    | none => t1
  let t3 := if strTruthy t2 then t2 else
    match s.ogTitleContent with
    | some c => if !c.isEmpty then some (String.mk (pyStrip c.toList)) else t2
    | none => t2
  if strTruthy t3 then t3 else
    match s.titleTag with
    | some raw => some (String.mk (pyStrip (raw.toList.takeWhile (fun c => !titleDelim c))))
    | none => t3

/-- The final guard of the title resolution: `if not title: title = "Title
not found"`. -/
def amazonTitle (s : AmazonSoup) : String :=
  if strTruthy (amazonTitleChain s) then (amazonTitleChain s).getD ""
  else "Title not found"

/-- The three-selector offscreen-price fallback chain. -/
def amazonOffscreen (s : AmazonSoup) : Option String :=
  s.offscreenPrimary.orElse fun _ => s.offscreenCore.orElse fun _ => s.offscreenAny

/-- Model of `re.sub(r"[^\d,\.]", "", raw_txt)`: keep only digits, commas, periods. -/
def amazonClean (raw : List Char) : List Char :=
  raw.filter (fun c => c.isDigit || c == ',' || c == '.')

/-- The locale normalization of `scrape_amazon` (lines 129-140): with both
separators present, periods are stripped and the comma becomes the decimal
point; with only commas, commas become decimal points; otherwise the string
is left as is. -/
def amazonNormalize (cleaned : List Char) : List Char :=
  if cleaned.contains ',' && cleaned.contains '.' then
    (cleaned.filter (fun c => c != '.')).map (fun c => if c = ',' then '.' else c)
  else if cleaned.contains ',' then
    cleaned.map (fun c => if c = ',' then '.' else c)
  else cleaned

/-- The price block of `scrape_amazon`: no offscreen element → sentinel
`"Price not found"`; otherwise clean, normalize and convert the text,
formatting on success and producing `"Price parse error"` when `Decimal`
raises `InvalidOperation`. -/
def amazonPrice (s : AmazonSoup) : String :=
  match amazonOffscreen s with
  | none => "Price not found"
  | some raw =>
    match pyDecimal? (amazonNormalize (amazonClean raw.toList)) with
    | some d => "€" ++ formatDot2 d
    | none => "Price parse error"

/-- The post-fetch part of `scrape_amazon`.  `html` is the raw fetched
markup and `s` the parsed view of it; `if not html: return None` makes the
function return no record when the fetched body is the empty string. -/
def scrape_amazon (cfg : SiteConfig) (html : String) (s : AmazonSoup) :
    Option ProductRecord :=
  if html.isEmpty then none
  else some { site := cfg.site, title := amazonTitle s, price := amazonPrice s, url := cfg.url }

/-! ### `scrape_teknozone` (src/price-tracker/scraper/teknozone.py) -/

/-- The queries `scrape_teknozone` makes on the parsed page. -/
structure TeknozoneSoup where
  /-- Stripped text of the first `h1.product-title`, if present. -/
  h1ProductTitle : Option String
  /-- Stripped text of the first `h1`, if present. -/
  h1 : Option String
  /-- Stripped texts of all `strong`/`span` elements whose string contains `€`. -/
  textsWithEuro : List String
  deriving Repr

/-- Tries `[.,]\d{2}` at the start of the input, returning the consumed
three characters. -/
def teknoSepCheck (cs : List Char) : Option (List Char) :=
  match cs with
  | sep :: a :: b :: _ =>
    if (sep = '.' || sep = ',') && a.isDigit && b.isDigit then some [sep, a, b] else none
  | _ => none

/-- Backtracking for the greedy `\d+` of `re.search(r"€\s*(\d+[.,]\d{2})", …)`:
try the longest digit run first, then shorter ones. -/
def teknoTryLen : Nat → List Char → Option (List Char)
  | 0, _ => none
  | k + 1, afterWs =>
    match teknoSepCheck (afterWs.drop (k + 1)) with
    | some sepPart => some (afterWs.take (k + 1) ++ sepPart)
    | none => teknoTryLen k afterWs

/-- Matches `\s*(\d+[.,]\d{2})` right after a `€`, returning group 1. -/
def teknoAfterEuro (rest : List Char) : Option (List Char) :=
  let afterWs := rest.dropWhile Char.isWhitespace
  teknoTryLen (afterWs.takeWhile Char.isDigit).length afterWs

/-- Model of `re.search(r"€\s*(\d+[.,]\d{2})", text)`: scan for the leftmost `€`
from which the rest of the pattern matches; returns capture group 1. -/
def searchEuroPrice : List Char → Option (List Char)
  | [] => none
  | '€' :: rest =>
    match teknoAfterEuro rest with
    | some g => some g
    | none => searchEuroPrice rest
  | _ :: rest => searchEuroPrice rest

/-- The `for text_string in texts_with_euro` loop of `scrape_teknozone`:
the first text whose search matches produces the record immediately;
`Decimal(raw.replace(',', '.'))` is not guarded by any `except`, so a
conversion failure would propagate as an exception, modelled as `none`. -/
def teknoLoop (cfg : SiteConfig) (title : String) : List String → Option ProductRecord
  | [] => some { site := cfg.site, title := title, price := "Price not found", url := cfg.url }
  | ts :: rest =>
    match searchEuroPrice ts.toList with
    | some g =>
      match pyDecimal? (g.map (fun c => if c = ',' then '.' else c)) with
      | some d =>
        some { site := cfg.site, title := title, price := "€" ++ formatDot2 d, url := cfg.url }
      | none => none
    | none => teknoLoop cfg title rest

/-- Title resolution of `scrape_teknozone`: element presence decides
(`find("h1", class_="product-title") or find("h1")`). -/
def teknoTitle (s : TeknozoneSoup) : String :=
  match s.h1ProductTitle.orElse fun _ => s.h1 with
  | some t => t
  | none => "Title not found"

/-- The post-fetch part of `scrape_teknozone`: title by element presence,
then the candidate loop. -/
def scrape_teknozone (cfg : SiteConfig) (s : TeknozoneSoup) : Option ProductRecord :=
  teknoLoop cfg (teknoTitle s) s.textsWithEuro

/-! ## Shape of `PRICE_REGEX` matches

Every match of `\d{1,3}(?:\.\d{3})*,\d{2}` is a digit group of length 1-3,
then dot-prefixed digit triples, then a comma and two digits.  This is what
makes the `InvalidOperation` branches of `parse_price` unreachable. -/

/-- All characters are decimal digits. -/
def allDigits (l : List Char) : Prop := ∀ c ∈ l, c.isDigit = true

/-- The `(?:\.\d{3})*` part: dot-prefixed groups, concatenated. -/
def dotGroups (gs : List (List Char)) : List Char := gs.flatMap (fun g => '.' :: g)

/-! ## C2: locale disambiguation -/

/-- The last (rightmost) separator character of a string. -/
def lastSep (cs : List Char) : Option Char :=
  (cs.filter (fun c => c == ',' || c == '.')).getLast?

/-- Modelled from the spec's locale rule as claimed: with both separators
present, the rightmost separator is the decimal point and the other is
stripped as a thousands separator; with only one kind present it is the
decimal separator. -/
def rightmostSeparatorNormalize (cleaned : List Char) : List Char :=
  if cleaned.contains ',' && cleaned.contains '.' then
    if lastSep cleaned == some ',' then
      (cleaned.filter (fun c => c != '.')).map (fun c => if c = ',' then '.' else c)
    else
      cleaned.filter (fun c => c != ',')
  else if cleaned.contains ',' then
    cleaned.map (fun c => if c = ',' then '.' else c)
  else cleaned

/-- Modelled from the spec as amended: the comma is the decimal separator
and all periods are stripped as thousands separators. -/
def commaDecimalNormalize (cleaned : List Char) : List Char :=
  (cleaned.filter (fun c => c != '.')).map (fun c => if c = ',' then '.' else c)

/-! ## C6: the European rendering of a two-decimal value

The spec's "European-formatted rendering of `d`" is built explicitly:
decimal digits of the integer part grouped in threes with `'.'`, then a
decimal `','` and two fraction digits.  `d` itself is parametrized as
`intPart + cents/100` with `cents < 100`, which covers every non-negative
decimal string with up to two decimal digits. -/

/-- The decimal digit characters. -/
def digitChar (d : Nat) : Char :=
  match d with
  | 0 => '0'
  | 1 => '1'
  | 2 => '2'
  | 3 => '3'
  | 4 => '4'
  | 5 => '5'
  | 6 => '6'
  | 7 => '7'
  | 8 => '8'
  | _ => '9'

/-- Decimal digits of `n`, least significant first, with fuel. -/
def natDigitsGo : Nat → Nat → List Char
  | 0, _ => []
  | fuel + 1, n =>
    if n = 0 then [] else digitChar (n % 10) :: natDigitsGo fuel (n / 10)

/-- Decimal digit characters of `n`, most significant first (canonical:
no leading zeros, `"0"` for zero). -/
def natDigits (n : Nat) : List Char :=
  if n = 0 then ['0'] else (natDigitsGo n n).reverse

/-- Left-pad a digit string to three characters with `'0'`. -/
def pad3 (ds : List Char) : List Char := List.replicate (3 - ds.length) '0' ++ ds

/-- The three-digit groups of `n`, most significant group first: the
leading group keeps 1-3 digits, every later group is zero-padded to
exactly three. -/
def euroGroupsGo : Nat → Nat → List (List Char)
  | 0, n => [natDigits n]
  | fuel + 1, n =>
    if n < 1000 then [natDigits n]
    else euroGroupsGo fuel (n / 1000) ++ [pad3 (natDigits (n % 1000))]

/-- The three-digit groups of `n`. -/
def euroGroups (n : Nat) : List (List Char) := euroGroupsGo n n

/-- Join groups with `'.'` thousands separators. -/
def dotJoin : List (List Char) → List Char
  | [] => []
  | [g] => g
  | g :: gs => g ++ '.' :: dotJoin gs

/-- The European rendering of the decimal value `intPart + cents/100`:
thousands periods, decimal comma, two fraction digits. -/
def euroFormat (intPart cents : Nat) : List Char :=
  dotJoin (euroGroups intPart) ++ ',' :: [digitChar (cents / 10), digitChar (cents % 10)]

/-! # Theorems -/

/-! ## Fetch layer (`src/http_client.py`) -/

/-- Unfolding of `fetchGo` when the current attempt fails with a retryable
exception and the stop condition is already reached. -/
theorem fetchGo_retryable_zero {env : Nat → AttemptResult} {a : Nat} {e : PyErr}
    (h : runAttempt (env a) = .error e) (hp : retryPred e = true) :
    fetchGo env a 0 = (.retryErr e, a, []) := by
  unfold fetchGo; rw [h]; simp [hp]

/-- Unfolding of `fetchGo` when the current attempt fails with a retryable
exception and further attempts remain: sleep `fetchWait a` and continue. -/
theorem fetchGo_retryable_succ {env : Nat → AttemptResult} {a r : Nat} {e : PyErr}
    (h : runAttempt (env a) = .error e) (hp : retryPred e = true) :
    fetchGo env a (r + 1) =
      ((fetchGo env (a + 1) r).1, (fetchGo env (a + 1) r).2.1,
        fetchWait a :: (fetchGo env (a + 1) r).2.2) := by
  conv_lhs => unfold fetchGo
  rw [h]; simp [hp]

/-- A transient network event produces a retryable exception. -/
theorem runAttempt_transient {env : Nat → AttemptResult} {i : Nat}
    (h : env i = .connFail ∨ env i = .timeout) :
    ∃ e, runAttempt (env i) = .error e ∧ retryPred e = true := by
  rcases h with h' | h' <;> rw [h'] <;>
    exact ⟨_, rfl, rfl⟩

/-- On an all-transient run, the retry loop runs the attempts `a, a+1, …, a+r`,
sleeps `fetchWait i` after each failing attempt `i < a+r`, and ends in a
`RetryError` wrapping the final attempt's exception. -/
theorem fetchGo_all_transient (env : Nat → AttemptResult) (r : Nat) :
    ∀ a : Nat, (∀ i, a ≤ i → i ≤ a + r → env i = .connFail ∨ env i = .timeout) →
    ∃ e, fetchGo env a r = (.retryErr e, a + r, (List.range r).map (fun k => fetchWait (a + k)))
      ∧ runAttempt (env (a + r)) = .error e := by
  induction r with
  | zero =>
    intro a h
    obtain ⟨e, he, hp⟩ := runAttempt_transient (h a le_rfl (by omega))
    exact ⟨e, by rw [fetchGo_retryable_zero he hp]; simp, by simpa using he⟩
  | succ r ih =>
    intro a h
    obtain ⟨e, hgo, hrun⟩ := ih (a + 1) (fun i h1 h2 => h i (by omega) (by omega))
    obtain ⟨e0, he0, hp0⟩ := runAttempt_transient (h a le_rfl (by omega))
    refine ⟨e, ?_, ?_⟩
    · rw [fetchGo_retryable_succ he0 hp0, hgo]
      refine Prod.ext rfl (Prod.ext (by simp; omega) ?_)
      simp only [List.range_succ_eq_map, List.map_cons, List.map_map, Nat.add_zero]
      refine congrArg₂ _ rfl (List.map_congr_left fun k _ => ?_)
      simp only [Function.comp_apply]
      exact congrArg fetchWait (by omega)
    · have hx : a + (r + 1) = a + 1 + r := by omega
      rw [hx]; exact hrun

/-- C1.  The claim says a successfully returned non-2xx status (e.g. 404)
makes `fetch` raise immediately, with no retry.  The code violates this:
`resp.raise_for_status()` raises `aiohttp.ClientResponseError`, which is a
subclass of `aiohttp.ClientError`, so the decorator's
`retry_if_exception_type((aiohttp.ClientError, asyncio.TimeoutError))`
classifies it as retryable.  With `RETRIES = 3` and a network that returns
HTTP 404 on every attempt, the code runs all 3 attempts, sleeping the
backoff delays 1 and 2 in between, and ends in a tenacity `RetryError` —
not an immediate raise after attempt 1. -/
theorem c1_http_404_is_retried :
    fetch (fun _ => .response 404 "") 3 =
      (.retryErr (.clientResponseError 404), 3, [1, 2]) ∧
    retryPred (.clientResponseError 404) = true := by
  decide

/-- C8.  On every run whose attempts all fail transiently (connection
failure or timeout), `fetch` uses exactly the configured maximum attempt
count and ends in a tenacity `RetryError` wrapping the final transient
exception (the spec's `TransientFetchError`). -/
theorem c8_transient_errors_exhaust_retries (env : Nat → AttemptResult) (maxAttempts : Nat)
    (hpos : 1 ≤ maxAttempts)
    (htr : ∀ i, 1 ≤ i → i ≤ maxAttempts → env i = .connFail ∨ env i = .timeout) :
    ∃ e, (fetch env maxAttempts).2.1 = maxAttempts ∧
      (fetch env maxAttempts).1 = .retryErr e ∧
      runAttempt (env maxAttempts) = .error e := by
  obtain ⟨e, hgo, hrun⟩ := fetchGo_all_transient env (maxAttempts - 1) 1
    (fun i h1 h2 => htr i h1 (by omega))
  have hx : 1 + (maxAttempts - 1) = maxAttempts := by omega
  rw [hx] at hgo hrun
  exact ⟨e, by rw [fetch, hgo], by rw [fetch, hgo], hrun⟩

/-- Witness for C8 at a concrete run: three timeouts with `RETRIES = 3`. -/
theorem c8_transient_errors_exhaust_retries_witness :
    ∃ e, (fetch (fun _ => .timeout) 3).2.1 = 3 ∧
      (fetch (fun _ => .timeout) 3).1 = .retryErr e ∧
      runAttempt ((fun _ => AttemptResult.timeout) 3) = .error e :=
  c8_transient_errors_exhaust_retries (fun _ => .timeout) 3 (by decide)
    (fun _ _ _ => Or.inr rfl)

/-- C9.  The backoff delay slept before the `n`-th retry
(`wait_exponential(multiplier=1, min=1, max=10)` evaluated at attempt
number `n`) equals `min 10 (2 ^ (n - 1))`: it starts at 1, doubles each
attempt, and is capped at 10. -/
theorem c9_backoff_doubles_capped_at_ten (n : Nat) (_h : 1 ≤ n) :
    fetchWait n = min 10 (2 ^ (n - 1)) := by
  have h1 : 1 ≤ 2 ^ (n - 1) := Nat.one_le_two_pow
  simp only [fetchWait, waitExponential, Nat.zero_max, one_mul]
  omega

/-- Witness for C9 at `n = 5`: the delay has reached the 10-unit cap. -/
theorem c9_backoff_doubles_capped_at_ten_witness :
    fetchWait 5 = min 10 (2 ^ (5 - 1)) :=
  c9_backoff_doubles_capped_at_ten 5 (by decide)

/-! ## Price normalizer (`src/scraper/phoneclick.py`) -/

/-- A `tryComma` match consumes a non-empty piece of the input. -/
theorem tryComma_spec {cs m r : List Char} (h : tryComma cs = some (m, r)) :
    m ++ r = cs ∧ m ≠ [] := by
  unfold tryComma at h
  split at h
  · split at h
    · obtain ⟨rfl, rfl⟩ := Prod.mk.injEq .. ▸ Option.some.inj h
      simp
    · exact absurd h (by simp)
  · exact absurd h (by simp)

/-- A `starComma` match consumes a non-empty piece of the input. -/
theorem starComma_spec {cs m r : List Char} (h : starComma cs = some (m, r)) :
    m ++ r = cs ∧ m ≠ [] := by
  induction cs using starComma.induct generalizing m r with
  | case1 d1 d2 d3 rest hd m0 r0 hrec ih =>
    simp only [starComma, hd, if_true, hrec] at h
    obtain ⟨h1, h2⟩ := Prod.mk.injEq .. ▸ Option.some.inj h
    subst h1; subst h2
    obtain ⟨hmr, hne⟩ := ih hrec
    exact ⟨by simp [hmr], by simp⟩
  | case2 d1 d2 d3 rest hd hrec =>
    simp only [starComma, hd, if_true, hrec] at h
    exact tryComma_spec h
  | case3 d1 d2 d3 rest hd =>
    simp only [starComma] at h
    rw [if_neg hd] at h
    exact tryComma_spec h
  | case4 cs hcs =>
    unfold starComma at h
    split at h
    · exact ((hcs _ _ _ _ rfl).elim : _)
    · exact tryComma_spec h

/-- A `tryLead` match consumes a non-empty piece of the input. -/
theorem tryLead_spec {n : Nat} {cs m r : List Char} (h : tryLead n cs = some (m, r)) :
    m ++ r = cs ∧ m ≠ [] := by
  unfold tryLead at h
  split at h
  · split at h
    · obtain ⟨rfl, rfl⟩ := Prod.mk.injEq .. ▸ Option.some.inj h
      obtain ⟨hmr, hne⟩ := starComma_spec (by assumption)
      refine ⟨?_, by simp [hne]⟩
      rw [List.append_assoc, hmr, List.take_append_drop]
    · exact absurd h (by simp)
  · exact absurd h (by simp)

/-- A `matchFrom` match consumes a non-empty piece of the input. -/
theorem matchFrom_spec {cs m r : List Char} (h : matchFrom cs = some (m, r)) :
    m ++ r = cs ∧ m ≠ [] := by
  unfold matchFrom at h
  rcases h3 : tryLead 3 cs with _ | p3
  · rcases h2 : tryLead 2 cs with _ | p2
    · rcases h1 : tryLead 1 cs with _ | p1
      · simp [h3, h2, h1, Option.orElse] at h
      · simp only [h3, h2, h1, Option.orElse] at h
        exact tryLead_spec (h1.trans h)
    · simp only [h3, h2, Option.orElse] at h
      exact tryLead_spec (h2.trans h)
  · simp only [h3, Option.orElse] at h
    exact tryLead_spec (h3.trans h)

/-- The remainder after a `matchFrom` match is strictly shorter. -/
theorem matchFrom_rest_lt {cs m r : List Char} (h : matchFrom cs = some (m, r)) :
    r.length < cs.length := by
  obtain ⟨hmr, hne⟩ := matchFrom_spec h
  have := congrArg List.length hmr
  simp only [List.length_append] at this
  have hm : 0 < m.length := List.length_pos.mpr hne
  omega

/-- The function `findallGo` is independent of the fuel once it covers the input length. -/
theorem findallGo_fuel {f1 : Nat} : ∀ {f2 : Nat} {cs : List Char},
    cs.length ≤ f1 → cs.length ≤ f2 → findallGo f1 cs = findallGo f2 cs := by
  induction f1 with
  | zero =>
    intro f2 cs h1 h2
    have : cs = [] := List.eq_nil_of_length_eq_zero (by omega)
    subst this
    cases f2 <;> rfl
  | succ f ih =>
    intro f2 cs h1 h2
    match cs with
    | [] => cases f2 <;> rfl
    | c :: cs =>
      match f2, h2 with
      | f2 + 1, h2 =>
        show findallGo (f + 1) (c :: cs) = findallGo (f2 + 1) (c :: cs)
        unfold findallGo
        rcases hm : matchFrom (c :: cs) with _ | ⟨m, r⟩
        · simp only []
          exact ih (by simpa using h1) (by simpa using h2)
        · simp only []
          have hr := matchFrom_rest_lt hm
          simp only [List.length_cons] at h1 h2 hr
          exact congrArg _ (@ih f2 r (by omega) (by omega))

/-- Unfolding `findall` on a successful match at the current position. -/
theorem findall_cons_match {c : Char} {cs m r : List Char}
    (h : matchFrom (c :: cs) = some (m, r)) :
    findall (c :: cs) = m :: findall r := by
  have hr := matchFrom_rest_lt h
  simp only [List.length_cons] at hr
  have step : findallGo (cs.length + 1) (c :: cs) = m :: findallGo cs.length r := by
    conv_lhs => unfold findallGo
    rw [h]
  show findallGo (c :: cs).length (c :: cs) = m :: findallGo r.length r
  simp only [List.length_cons]
  rw [step, @findallGo_fuel cs.length r.length r (by omega) le_rfl]

/-- Unfolding `findall` when no match starts at the current position. -/
theorem findall_cons_nomatch {c : Char} {cs : List Char}
    (h : matchFrom (c :: cs) = none) :
    findall (c :: cs) = findall cs := by
  have step : findallGo (cs.length + 1) (c :: cs) = findallGo cs.length cs := by
    conv_lhs => unfold findallGo
    rw [h]
  show findallGo (c :: cs).length (c :: cs) = findallGo cs.length cs
  simp only [List.length_cons]
  exact step

/-! ## Shape of `PRICE_REGEX` matches -/

theorem allDigits_nil : allDigits [] := by
  intro c hc
  exact absurd hc (List.not_mem_nil c)

theorem allDigits_cons {c : Char} {l : List Char} (h1 : c.isDigit = true)
    (h2 : allDigits l) : allDigits (c :: l) := by
  intro x hx
  rcases List.mem_cons.mp hx with rfl | hx
  · exact h1
  · exact h2 x hx

theorem tryComma_shape {cs m r : List Char} (h : tryComma cs = some (m, r)) :
    ∃ a b, m = [',', a, b] ∧ a.isDigit = true ∧ b.isDigit = true := by
  unfold tryComma at h
  split at h
  · split at h
    · obtain ⟨h1, h2⟩ := Prod.mk.injEq .. ▸ Option.some.inj h
      subst h1
      exact ⟨_, _, rfl, by simp_all, by simp_all⟩
    · exact absurd h (by simp)
  · exact absurd h (by simp)

theorem starComma_shape {cs m r : List Char} (h : starComma cs = some (m, r)) :
    ∃ (gs : List (List Char)) (cc : List Char),
      m = dotGroups gs ++ ',' :: cc ∧
      (∀ g ∈ gs, g.length = 3 ∧ allDigits g) ∧ cc.length = 2 ∧ allDigits cc := by
  induction cs using starComma.induct generalizing m r with
  | case1 d1 d2 d3 rest hd m0 r0 hrec ih =>
    simp only [starComma, hd, if_true, hrec] at h
    obtain ⟨h1, h2⟩ := Prod.mk.injEq .. ▸ Option.some.inj h
    subst h1
    obtain ⟨gs, cc, hm, hgs, hcc2, hccd⟩ := ih hrec
    simp only [Bool.and_eq_true] at hd
    refine ⟨[d1, d2, d3] :: gs, cc, ?_, ?_, hcc2, hccd⟩
    · simp [dotGroups, hm]
    · intro g hg
      rcases List.mem_cons.mp hg with rfl | hg
      · exact ⟨rfl, allDigits_cons hd.1.1 (allDigits_cons hd.1.2
          (allDigits_cons hd.2 allDigits_nil))⟩
      · exact hgs g hg
  | case2 d1 d2 d3 rest hd hrec =>
    simp only [starComma, hd, if_true, hrec] at h
    obtain ⟨a, b, hm, ha, hb⟩ := tryComma_shape h
    exact ⟨[], [a, b], by simp [dotGroups, hm], by simp, rfl,
      allDigits_cons ha (allDigits_cons hb allDigits_nil)⟩
  | case3 d1 d2 d3 rest hd =>
    simp only [starComma] at h
    rw [if_neg hd] at h
    obtain ⟨a, b, hm, ha, hb⟩ := tryComma_shape h
    exact ⟨[], [a, b], by simp [dotGroups, hm], by simp, rfl,
      allDigits_cons ha (allDigits_cons hb allDigits_nil)⟩
  | case4 cs hcs =>
    unfold starComma at h
    split at h
    · exact ((hcs _ _ _ _ rfl).elim : _)
    · obtain ⟨a, b, hm, ha, hb⟩ := tryComma_shape h
      exact ⟨[], [a, b], by simp [dotGroups, hm], by simp, rfl,
        allDigits_cons ha (allDigits_cons hb allDigits_nil)⟩

theorem tryLead_shape {n : Nat} {cs m r : List Char} (h : tryLead n cs = some (m, r)) :
    ∃ (g0 : List Char) (gs : List (List Char)) (cc : List Char),
      m = g0 ++ dotGroups gs ++ ',' :: cc ∧
      g0.length = n ∧ allDigits g0 ∧
      (∀ g ∈ gs, g.length = 3 ∧ allDigits g) ∧ cc.length = 2 ∧ allDigits cc := by
  unfold tryLead at h
  split at h
  · rename_i hcond
    split at h
    · rename_i m0 r0 hstar
      obtain ⟨h1, h2⟩ := Prod.mk.injEq .. ▸ Option.some.inj h
      subst h1
      obtain ⟨gs, cc, hm0, hgs, hcc⟩ := starComma_shape hstar
      simp only [Bool.and_eq_true, decide_eq_true_eq] at hcond
      refine ⟨cs.take n, gs, cc, ?_, hcond.1, ?_, hgs, hcc⟩
      · rw [hm0]; simp
      · intro c hc
        have hall := hcond.2
        simp only [List.all_eq_true] at hall
        exact hall c hc
    · exact absurd h (by simp)
  · exact absurd h (by simp)

theorem matchFrom_shape {cs m r : List Char} (h : matchFrom cs = some (m, r)) :
    ∃ (g0 : List Char) (gs : List (List Char)) (cc : List Char),
      m = g0 ++ dotGroups gs ++ ',' :: cc ∧
      1 ≤ g0.length ∧ g0.length ≤ 3 ∧ allDigits g0 ∧
      (∀ g ∈ gs, g.length = 3 ∧ allDigits g) ∧ cc.length = 2 ∧ allDigits cc := by
  unfold matchFrom at h
  rcases h3 : tryLead 3 cs with _ | p3
  · rcases h2 : tryLead 2 cs with _ | p2
    · rcases h1 : tryLead 1 cs with _ | p1
      · simp [h3, h2, h1, Option.orElse] at h
      · simp only [h3, h2, h1, Option.orElse] at h
        obtain ⟨g0, gs, cc, hm, hn, hrest⟩ := tryLead_shape (h1.trans h)
        exact ⟨g0, gs, cc, hm, by omega, by omega, hrest⟩
    · simp only [h3, h2, Option.orElse] at h
      obtain ⟨g0, gs, cc, hm, hn, hrest⟩ := tryLead_shape (h2.trans h)
      exact ⟨g0, gs, cc, hm, by omega, by omega, hrest⟩
  · simp only [h3, Option.orElse] at h
    obtain ⟨g0, gs, cc, hm, hn, hrest⟩ := tryLead_shape (h3.trans h)
    exact ⟨g0, gs, cc, hm, by omega, by omega, hrest⟩

/-- Every string in a `findall` result is a `matchFrom` match of some
suffix of the input. -/
theorem findallGo_mem {fuel : Nat} : ∀ {cs m : List Char}, m ∈ findallGo fuel cs →
    ∃ cs0 r, matchFrom cs0 = some (m, r) := by
  induction fuel with
  | zero =>
    intro cs m h
    exact absurd h (by simp [findallGo])
  | succ fuel ih =>
    intro cs m h
    match cs with
    | [] => exact absurd h (by simp [findallGo])
    | c :: cs =>
      unfold findallGo at h
      rcases hm : matchFrom (c :: cs) with _ | ⟨m0, r⟩ <;> rw [hm] at h
      · exact ih h
      · rcases List.mem_cons.mp h with rfl | h
        · exact ⟨c :: cs, r, hm⟩
        · exact ih h

theorem findall_mem {text m : List Char} (h : m ∈ findall text) :
    ∃ cs0 r, matchFrom cs0 = some (m, r) :=
  findallGo_mem h

/-! ## Conversion of matched strings always succeeds -/

theorem ne_dot_of_digit {c : Char} (h : c.isDigit = true) : c ≠ '.' := by
  intro hc; subst hc; exact absurd h (by decide)

theorem ne_comma_of_digit {c : Char} (h : c.isDigit = true) : c ≠ ',' := by
  intro hc; subst hc; exact absurd h (by decide)

theorem not_mem_of_allDigits {l : List Char} (h : allDigits l) : '.' ∉ l := by
  intro hc
  exact ne_dot_of_digit (h _ hc) rfl

theorem splitDot_append {ds : List Char} (cc : List Char) (h : '.' ∉ ds) :
    splitDot (ds ++ '.' :: cc) = (ds, some cc) := by
  induction ds with
  | nil => simp [splitDot]
  | cons c ds ih =>
    have hc : c ≠ '.' := fun hc => h (hc ▸ List.mem_cons_self c ds)
    have htail : '.' ∉ ds := fun hm => h (List.mem_cons_of_mem c hm)
    simp only [List.cons_append, splitDot, if_neg hc, List.append_eq, ih htail]

/-- Conversion by `Decimal` succeeds on `digits ++ "." ++ digits` with a non-empty
fraction part, producing the value scaled by the fraction length. -/
theorem pyDecimal?_frac {ds cc : List Char} (hds : allDigits ds) (hcc : allDigits cc)
    (hne : cc ≠ []) :
    pyDecimal? (ds ++ '.' :: cc) =
      some ⟨natOfDigits ds * 10 ^ cc.length + natOfDigits cc, cc.length⟩ := by
  unfold pyDecimal?
  rw [splitDot_append cc (not_mem_of_allDigits hds)]
  have h1 : cc.contains '.' = false := by
    simpa using not_mem_of_allDigits hcc
  have h2 : (ds ++ cc).isEmpty = false := by
    simp [hne]
  have h3 : (ds ++ cc).all Char.isDigit = true := by
    simp only [List.all_append, Bool.and_eq_true, List.all_eq_true]
    exact ⟨fun c hc => hds c hc, fun c hc => hcc c hc⟩
  simp [h1, h2, h3, not_mem_of_allDigits hcc]

theorem filter_ne_dot_of_digits {l : List Char} (hl : allDigits l) :
    l.filter (fun c => c != '.') = l := by
  apply List.filter_eq_self.mpr
  intro c hc
  simpa using ne_dot_of_digit (hl c hc)

theorem map_comma_of_digits {l : List Char} (hl : allDigits l) :
    l.map (fun c => if c = ',' then '.' else c) = l := by
  have : l.map (fun c => if c = ',' then '.' else c) = l.map id :=
    List.map_congr_left fun c hc => if_neg (ne_comma_of_digit (hl c hc))
  rw [this, List.map_id]

theorem filter_dotGroups {gs : List (List Char)} (hgs : ∀ g ∈ gs, allDigits g) :
    (dotGroups gs).filter (fun c => c != '.') = gs.flatten := by
  induction gs with
  | nil => rfl
  | cons g gs ih =>
    have hg : allDigits g := hgs g (List.mem_cons_self g gs)
    have htail : ∀ x ∈ gs, allDigits x := fun x hx => hgs x (List.mem_cons_of_mem g hx)
    have hstep : dotGroups (g :: gs) = '.' :: (g ++ dotGroups gs) := by
      simp [dotGroups]
    rw [hstep]
    have h2 : ('.' :: (g ++ dotGroups gs)).filter (fun c => c != '.') =
        (g ++ dotGroups gs).filter (fun c => c != '.') := by
      simp [List.filter_cons]
    rw [h2, List.filter_append, filter_ne_dot_of_digits hg, ih htail, List.flatten_cons]

/-- The normalization `raw.replace(".", "").replace(",", ".")` of a string
of the matched shape: the grouping dots disappear, the digits concatenate,
and the decimal comma becomes a dot. -/
theorem normalizeEuroMatch_euro (g0 : List Char) (gs : List (List Char)) (cc : List Char)
    (hg0 : allDigits g0) (hgs : ∀ g ∈ gs, allDigits g) (hcc : allDigits cc) :
    normalizeEuroMatch (g0 ++ dotGroups gs ++ ',' :: cc) =
      (g0 ++ gs.flatten) ++ '.' :: cc := by
  have hflat : allDigits gs.flatten := by
    intro c hc
    obtain ⟨g, hg, hcg⟩ := List.mem_flatten.mp hc
    exact hgs g hg c hcg
  unfold normalizeEuroMatch
  have hcomma : (',' :: cc).filter (fun c => c != '.') = ',' :: cc := by
    simp [List.filter_cons, filter_ne_dot_of_digits hcc]
  rw [List.filter_append, List.filter_append, hcomma,
    filter_ne_dot_of_digits hg0, filter_dotGroups hgs]
  rw [List.map_append, List.map_append, List.map_cons]
  rw [map_comma_of_digits hg0, map_comma_of_digits hflat, map_comma_of_digits hcc]
  simp

/-- Conversion of any string of the matched shape succeeds, giving the
concatenated digits over two decimal places. -/
theorem decimalOfMatch_euro {g0 : List Char} {gs : List (List Char)} {cc : List Char}
    (hg0 : allDigits g0) (hgs : ∀ g ∈ gs, allDigits g) (hcc : allDigits cc)
    (hne : cc ≠ []) :
    decimalOfMatch (g0 ++ dotGroups gs ++ ',' :: cc) =
      some ⟨natOfDigits (g0 ++ gs.flatten) * 10 ^ cc.length + natOfDigits cc, cc.length⟩ := by
  unfold decimalOfMatch
  rw [normalizeEuroMatch_euro g0 gs cc hg0 hgs hcc]
  refine pyDecimal?_frac ?_ hcc hne
  intro c hc
  rcases List.mem_append.mp hc with hc | hc
  · exact hg0 c hc
  · obtain ⟨g, hg, hcg⟩ := List.mem_flatten.mp hc
    exact hgs g hg c hcg

/-- The `InvalidOperation` branch is unreachable: every `PRICE_REGEX` match
converts, to a two-decimal value. -/
theorem decimalOfMatch_of_matchFrom {cs m r : List Char}
    (h : matchFrom cs = some (m, r)) :
    ∃ d : Dec, decimalOfMatch m = some d ∧ d.scale = 2 := by
  obtain ⟨g0, gs, cc, hm, hl1, hl3, hg0, hgs, hcc2, hccd⟩ := matchFrom_shape h
  subst hm
  have hgs2 : ∀ g ∈ gs, allDigits g := fun g hg => (hgs g hg).2
  have hne : cc ≠ [] := by
    intro hnil
    rw [hnil] at hcc2
    exact absurd hcc2 (by simp)
  rw [decimalOfMatch_euro hg0 hgs2 hccd hne]
  exact ⟨_, rfl, hcc2⟩

theorem findall_conv_isSome {text m : List Char} (h : m ∈ findall text) :
    (decimalOfMatch m).isSome := by
  obtain ⟨cs0, r, hmf⟩ := findall_mem h
  obtain ⟨d, hd, _⟩ := decimalOfMatch_of_matchFrom hmf
  simp [hd]

/-- The reverse-scan loop is `find?` over the successfully converted
candidates. -/
theorem parsePriceLoop_eq (l : List (List Char)) :
    parsePriceLoop l = (l.filterMap decimalOfMatch).find? (fun v => v.lt ⟨1000, 0⟩) := by
  induction l with
  | nil => rfl
  | cons m rest ih =>
    unfold parsePriceLoop
    rcases hm : decimalOfMatch m with _ | d
    · simp only [List.filterMap_cons, hm, ih]
    · simp only [List.filterMap_cons, hm, List.find?_cons]
      rcases hd : d.lt ⟨1000, 0⟩ <;> simp [hd, ih]

theorem filterMap_ne_nil_of_isSome {α β : Type} {f : α → Option β} :
    ∀ {l : List α}, l ≠ [] → (∀ x ∈ l, (f x).isSome) → l.filterMap f ≠ [] := by
  intro l hne hall
  match l with
  | x :: t =>
    obtain ⟨b, hb⟩ := Option.isSome_iff_exists.mp (hall x (List.mem_cons_self x t))
    simp [List.filterMap_cons, hb]

theorem getLast?_filterMap_of_isSome {α β : Type} {f : α → Option β} :
    ∀ {l : List α} {a : α}, l.getLast? = some a → (∀ x ∈ l, (f x).isSome) →
      (l.filterMap f).getLast? = f a := by
  intro l
  induction l with
  | nil => intro a h; simp at h
  | cons x t ih =>
    intro a h hall
    match t with
    | [] =>
      simp only [List.getLast?_singleton, Option.some.injEq] at h
      subst h
      obtain ⟨b, hb⟩ := Option.isSome_iff_exists.mp (hall x (List.mem_cons_self x []))
      simp [List.filterMap_cons, hb]
    | y :: t2 =>
      have htail : (y :: t2).getLast? = some a := by
        rwa [List.getLast?_cons_cons] at h
      have halltail : ∀ z ∈ y :: t2, (f z).isSome :=
        fun z hz => hall z (List.mem_cons_of_mem x hz)
      have hrec := ih htail halltail
      have hnn : (y :: t2).filterMap f ≠ [] :=
        filterMap_ne_nil_of_isSome (by simp) halltail
      rcases hL : (y :: t2).filterMap f with _ | ⟨b, L⟩
      · exact absurd hL hnn
      · rcases hx : f x with _ | bx
        · rw [List.filterMap_cons, hx, hL]
          rw [hL] at hrec
          exact hrec
        · rw [List.filterMap_cons, hx, hL]
          rw [hL] at hrec
          rw [List.getLast?_cons_cons]
          exact hrec

/-- C3's general content: `parse_price` returns the first reverse-scanned
candidate under 1000, else the last candidate's value. -/
theorem parse_price_find (text : List Char) :
    parse_price text =
      ((((findall (cleanText text)).filterMap decimalOfMatch).reverse.find?
        (fun v => v.lt ⟨1000, 0⟩)).orElse
        (fun _ => ((findall (cleanText text)).filterMap decimalOfMatch).getLast?)) := by
  unfold parse_price
  have hall : ∀ m ∈ findall (cleanText text), (decimalOfMatch m).isSome :=
    fun m hm => findall_conv_isSome hm
  rcases hlast : (findall (cleanText text)).getLast? with _ | lastM
  · have hnil : findall (cleanText text) = [] := List.getLast?_eq_none_iff.mp hlast
    simp [hnil, Option.orElse]
  · simp only [hlast]
    rw [parsePriceLoop_eq, List.filterMap_reverse]
    rcases hfind : ((findall (cleanText text)).filterMap decimalOfMatch).reverse.find?
        (fun v => v.lt ⟨1000, 0⟩) with _ | v
    · simp only [hfind, Option.orElse]
      exact (getLast?_filterMap_of_isSome hlast hall).symm
    · simp [hfind, Option.orElse]

/-! ## Digit-free inputs never match -/

theorem tryLead_none_head {n : Nat} {c : Char} {cs : List Char} (hn : n ≠ 0)
    (hc : c.isDigit = false) : tryLead n (c :: cs) = none := by
  match n, hn with
  | n' + 1, _ =>
    unfold tryLead
    rw [if_neg ?_]
    simp [List.take_succ_cons, hc]

theorem matchFrom_none_of_head {c : Char} {cs : List Char} (hc : c.isDigit = false) :
    matchFrom (c :: cs) = none := by
  unfold matchFrom
  rw [tryLead_none_head (n := 3) (by decide) hc,
    tryLead_none_head (n := 2) (by decide) hc,
    tryLead_none_head (n := 1) (by decide) hc]
  rfl

theorem findall_nil_of_no_digit : ∀ {cs : List Char},
    (∀ c ∈ cs, c.isDigit = false) → findall cs = [] := by
  intro cs
  induction cs with
  | nil => intro _; rfl
  | cons c cs ih =>
    intro h
    rw [findall_cons_nomatch (matchFrom_none_of_head (h c (List.mem_cons_self c cs)))]
    exact ih fun x hx => h x (List.mem_cons_of_mem c hx)

theorem pyStrip_subset (l : List Char) : pyStrip l ⊆ l := by
  intro x hx
  unfold pyStrip at hx
  rw [List.mem_reverse] at hx
  have h1 := (List.dropWhile_sublist (l := (l.dropWhile Char.isWhitespace).reverse)
    (p := Char.isWhitespace)).subset hx
  rw [List.mem_reverse] at h1
  exact (List.dropWhile_sublist (l := l) (p := Char.isWhitespace)).subset h1

theorem replaceNbsp_cons_ne {c0 : Char} {rest : List Char}
    (hne : ∀ rest2 : List Char, c0 = '&' →
      rest = 'n' :: 'b' :: 's' :: 'p' :: ';' :: rest2 → False) :
    replaceNbsp (c0 :: rest) = c0 :: replaceNbsp rest := by
  conv_lhs => unfold replaceNbsp
  split
  · rename_i rest2 heq
    obtain ⟨h1, h2⟩ := List.cons_eq_cons.mp heq
    exact (hne rest2 h1 h2).elim
  · rename_i c2 rest2 hx heq
    obtain ⟨h1, h2⟩ := List.cons_eq_cons.mp heq
    rw [h1, h2]
  · rename_i heq
    exact absurd heq (by simp)

theorem mem_replaceNbsp : ∀ {l : List Char} {c : Char}, c ∈ replaceNbsp l →
    c ∈ l ∨ c = ' ' := by
  intro l
  induction l using replaceNbsp.induct with
  | case1 rest ih =>
    intro c hc
    rcases List.mem_cons.mp hc with rfl | hc
    · exact Or.inr rfl
    · rcases ih hc with h | h
      · exact Or.inl (by simp [h])
      · exact Or.inr h
  | case2 c0 rest hne ih =>
    intro c hc
    rw [replaceNbsp_cons_ne hne] at hc
    rcases List.mem_cons.mp hc with rfl | hc
    · exact Or.inl (List.mem_cons_self _ _)
    · rcases ih hc with h | h
      · exact Or.inl (List.mem_cons_of_mem _ h)
      · exact Or.inr h
  | case3 =>
    intro c hc
    exact absurd hc (List.not_mem_nil c)

theorem mem_cleanText {text : List Char} {c : Char} (h : c ∈ cleanText text) :
    c ∈ text ∨ c = ' ' := by
  unfold cleanText at h
  have h1 := pyStrip_subset _ h
  rcases mem_replaceNbsp h1 with h2 | h2
  · obtain ⟨c0, hc0, hfc⟩ := List.mem_map.mp h2
    unfold nbspToSpace at hfc
    split at hfc
    · exact Or.inr hfc.symm
    · exact Or.inl (hfc ▸ hc0)
  · exact Or.inr h2

/-- A digit-free input cleans to a digit-free input, so nothing matches. -/
theorem parse_price_none_of_no_digit {text : List Char}
    (h : ∀ c ∈ text, c.isDigit = false) : parse_price text = none := by
  have hclean : ∀ c ∈ cleanText text, c.isDigit = false := by
    intro c hc
    rcases mem_cleanText hc with h2 | h2
    · exact h c h2
    · subst h2; decide
  unfold parse_price
  rw [findall_nil_of_no_digit hclean]
  rfl

/-! ## Sentinel strings are pairwise distinct from formatted prices -/

theorem euro_ne_parse_error (s : String) : "€" ++ s ≠ "Price parse error" := by
  intro h
  have hd := congrArg String.data h
  rw [String.data_append] at hd
  rw [show "€".data = ['€'] from rfl] at hd
  rw [show "Price parse error".data = 'P' :: "rice parse error".data from rfl] at hd
  exact absurd (List.cons_eq_cons.mp hd).1 (by decide)

theorem euro_ne_not_found (s : String) : "€" ++ s ≠ "Price not found" := by
  intro h
  have hd := congrArg String.data h
  rw [String.data_append] at hd
  rw [show "€".data = ['€'] from rfl] at hd
  rw [show "Price not found".data = 'P' :: "rice not found".data from rfl] at hd
  exact absurd (List.cons_eq_cons.mp hd).1 (by decide)

theorem euro_ne_empty (s : String) : "€" ++ s ≠ "" := by
  intro h
  have hd := congrArg String.length h
  rw [String.length_append] at hd
  simp at hd
  exact absurd hd.1 (by decide)

/-! ## Shape of teknozone's `€\s*(\d+[.,]\d{2})` matches -/

theorem teknoSepCheck_shape {cs m : List Char} (h : teknoSepCheck cs = some m) :
    ∃ sep a b, m = [sep, a, b] ∧ (sep = '.' ∨ sep = ',') ∧
      a.isDigit = true ∧ b.isDigit = true := by
  unfold teknoSepCheck at h
  split at h
  · split at h
    · rename_i hcond
      refine ⟨_, _, _, (Option.some.inj h).symm, ?_, ?_, ?_⟩ <;> simp_all
    · exact absurd h (by simp)
  · exact absurd h (by simp)

theorem teknoTryLen_shape : ∀ {k : Nat} {afterWs m : List Char},
    k ≤ (afterWs.takeWhile Char.isDigit).length →
    teknoTryLen k afterWs = some m →
    ∃ ds sep a b, m = ds ++ [sep, a, b] ∧ ds ≠ [] ∧ allDigits ds ∧
      (sep = '.' ∨ sep = ',') ∧ a.isDigit = true ∧ b.isDigit = true := by
  intro k
  induction k with
  | zero => intro afterWs m _ h; exact absurd h (by simp [teknoTryLen])
  | succ k ih =>
    intro afterWs m hk h
    unfold teknoTryLen at h
    rcases hsep : teknoSepCheck (afterWs.drop (k + 1)) with _ | sepPart
    · rw [hsep] at h
      exact ih (by omega) h
    · rw [hsep] at h
      obtain ⟨sep, a, b, hsm, hsep2, ha, hb⟩ := teknoSepCheck_shape hsep
      refine ⟨afterWs.take (k + 1), sep, a, b, ?_, ?_, ?_, hsep2, ha, hb⟩
      · rw [← Option.some.inj h, hsm]
      · have hlen : afterWs.length ≥ k + 1 := by
          have := (List.takeWhile_sublist (l := afterWs) Char.isDigit).length_le
          omega
        have : (afterWs.take (k + 1)).length = k + 1 := by
          rw [List.length_take]; omega
        intro hnil
        rw [hnil] at this
        simp at this
      · intro c hc
        have hpre : afterWs.take (k + 1) = (afterWs.takeWhile Char.isDigit).take (k + 1) := by
          conv_lhs =>
            rw [← List.takeWhile_append_dropWhile (p := Char.isDigit) (l := afterWs)]
          rw [List.take_append_of_le_length hk]
        rw [hpre] at hc
        exact List.mem_takeWhile_imp ((List.take_subset _ _) hc)

theorem teknoAfterEuro_shape {rest m : List Char} (h : teknoAfterEuro rest = some m) :
    ∃ ds sep a b, m = ds ++ [sep, a, b] ∧ ds ≠ [] ∧ allDigits ds ∧
      (sep = '.' ∨ sep = ',') ∧ a.isDigit = true ∧ b.isDigit = true :=
  teknoTryLen_shape le_rfl h

theorem searchEuroPrice_cons_ne {c : Char} {rest : List Char} (hne : c = '€' → False) :
    searchEuroPrice (c :: rest) = searchEuroPrice rest := by
  conv_lhs => unfold searchEuroPrice
  split
  · rename_i heq
    exact absurd heq (by simp)
  · rename_i rest2 heq
    exact absurd (List.cons_eq_cons.mp heq).1 (fun hh => hne hh)
  · rename_i c2 rest2 hx heq
    rw [(List.cons_eq_cons.mp heq).2]

theorem searchEuroPrice_shape : ∀ {cs m : List Char}, searchEuroPrice cs = some m →
    ∃ ds sep a b, m = ds ++ [sep, a, b] ∧ ds ≠ [] ∧ allDigits ds ∧
      (sep = '.' ∨ sep = ',') ∧ a.isDigit = true ∧ b.isDigit = true := by
  intro cs
  induction cs using searchEuroPrice.induct with
  | case1 => intro m h; exact absurd h (by simp [searchEuroPrice])
  | case2 rest g hg =>
    intro m h
    have h2 : (match teknoAfterEuro rest with
        | some g => some g
        | none => searchEuroPrice rest) = some m := h
    rw [hg] at h2
    have h3 : teknoAfterEuro rest = some m := by rw [hg, Option.some.inj h2]
    exact teknoAfterEuro_shape h3
  | case3 rest hg ih =>
    intro m h
    have h2 : (match teknoAfterEuro rest with
        | some g => some g
        | none => searchEuroPrice rest) = some m := h
    rw [hg] at h2
    exact ih h2
  | case4 c rest hne ih =>
    intro m h
    rw [searchEuroPrice_cons_ne hne] at h
    exact ih h

/-- The unguarded `Decimal(raw.replace(',', '.'))` of `scrape_teknozone`
always succeeds on a search result, with two decimal places. -/
theorem teknoConv_of_search {ts m : List Char} (h : searchEuroPrice ts = some m) :
    ∃ d : Dec, pyDecimal? (m.map (fun c => if c = ',' then '.' else c)) = some d ∧
      d.scale = 2 := by
  obtain ⟨ds, sep, a, b, rfl, hne, hds, hsep, ha, hb⟩ := searchEuroPrice_shape h
  have hmap : (ds ++ [sep, a, b]).map (fun c => if c = ',' then '.' else c) =
      ds ++ '.' :: [a, b] := by
    rw [List.map_append, map_comma_of_digits hds]
    have hsepmap : (if sep = ',' then '.' else sep) = '.' := by
      rcases hsep with rfl | rfl <;> simp
    simp [hsepmap, if_neg (ne_comma_of_digit ha), if_neg (ne_comma_of_digit hb)]
  rw [hmap]
  rw [pyDecimal?_frac hds (allDigits_cons ha (allDigits_cons hb allDigits_nil)) (by simp)]
  exact ⟨_, rfl, rfl⟩

/-- The teknozone candidate loop always returns a record. -/
theorem teknoLoop_isSome (cfg : SiteConfig) (title : String) :
    ∀ l : List String, ∃ r, teknoLoop cfg title l = some r := by
  intro l
  induction l with
  | nil => exact ⟨_, rfl⟩
  | cons ts rest ih =>
    rcases hs : searchEuroPrice ts.toList with _ | g
    · obtain ⟨r, hr⟩ := ih
      refine ⟨r, ?_⟩
      unfold teknoLoop
      rw [hs]
      exact hr
    · obtain ⟨d, hd, _⟩ := teknoConv_of_search hs
      refine ⟨ProductRecord.mk cfg.site title ("€" ++ formatDot2 d) cfg.url, ?_⟩
      unfold teknoLoop
      rw [hs]
      show (match pyDecimal? (g.map (fun c => if c = ',' then '.' else c)) with
        | some d => some (ProductRecord.mk cfg.site title ("€" ++ formatDot2 d) cfg.url)
        | none => none) =
        some (ProductRecord.mk cfg.site title ("€" ++ formatDot2 d) cfg.url)
      rw [hd]

/-- Unfolding the price block when an offscreen candidate was located. -/
theorem amazonPrice_some {s : AmazonSoup} {raw : String}
    (h : amazonOffscreen s = some raw) :
    amazonPrice s = (match pyDecimal? (amazonNormalize (amazonClean raw.toList)) with
      | some d => "€" ++ formatDot2 d
      | none => "Price parse error") := by
  unfold amazonPrice
  rw [h]

/-- Unfolding the price block when no offscreen candidate exists. -/
theorem amazonPrice_none {s : AmazonSoup} (h : amazonOffscreen s = none) :
    amazonPrice s = "Price not found" := by
  unfold amazonPrice
  rw [h]

/-- The amazon price block yields the `"Price parse error"` sentinel
exactly when an offscreen candidate was located and its cleaned,
normalized text fails `Decimal` conversion. -/
theorem amazonPrice_parse_error_iff (s : AmazonSoup) :
    amazonPrice s = "Price parse error" ↔
      ∃ raw, amazonOffscreen s = some raw ∧
        pyDecimal? (amazonNormalize (amazonClean raw.toList)) = none := by
  rcases h : amazonOffscreen s with _ | raw
  · rw [amazonPrice_none h]
    constructor
    · intro hfalse
      exact absurd hfalse (by decide)
    · rintro ⟨raw, hraw, _⟩
      exact Option.noConfusion hraw
  · rw [amazonPrice_some h]
    rcases h2 : pyDecimal? (amazonNormalize (amazonClean raw.toList)) with _ | d
    · exact ⟨fun _ => ⟨raw, rfl, h2⟩, fun _ => rfl⟩
    · constructor
      · intro hfalse
        exact absurd hfalse (euro_ne_parse_error _)
      · rintro ⟨raw2, hraw2, hnone⟩
        rw [Option.some.inj hraw2] at h2
        rw [hnone] at h2
        exact Option.noConfusion h2

/-- Any record the teknozone candidate loop returns carries either the
not-found sentinel or a currency-formatted price. -/
theorem teknoLoop_price (cfg : SiteConfig) (title : String) :
    ∀ (l : List String) (r : ProductRecord), teknoLoop cfg title l = some r →
      r.price = "Price not found" ∨ ∃ d : Dec, r.price = "€" ++ formatDot2 d := by
  intro l
  induction l with
  | nil =>
    intro r hr
    unfold teknoLoop at hr
    obtain rfl := Option.some.inj hr
    exact Or.inl rfl
  | cons ts rest ih =>
    intro r hr
    rcases hs : searchEuroPrice ts.toList with _ | g
    · apply ih
      unfold teknoLoop at hr
      rw [hs] at hr
      exact hr
    · obtain ⟨d, hd, _⟩ := teknoConv_of_search hs
      unfold teknoLoop at hr
      rw [hs] at hr
      have hr2 : (match pyDecimal? (g.map (fun c => if c = ',' then '.' else c)) with
          | some d => some (ProductRecord.mk cfg.site title ("€" ++ formatDot2 d) cfg.url)
          | none => none) = some r := hr
      rw [hd] at hr2
      obtain rfl := Option.some.inj hr2
      exact Or.inr ⟨d, rfl⟩

/-- C3.  `parse_price` scans the candidates in reverse (rightmost first)
and returns the first value under 1000; if none qualifies it returns the
last (rightmost) candidate's value regardless of magnitude.  In
particular, candidates `[1500, 45, 12000]` in scan order yield 45, and
candidates `[1500, 12000]` (all ≥ 1000) yield the rightmost, 12000. -/
theorem c3_reverse_scan_under_1000 :
    (∀ text : List Char,
      parse_price text =
        ((((findall (cleanText text)).filterMap decimalOfMatch).reverse.find?
          (fun v => v.lt ⟨1000, 0⟩)).orElse
          (fun _ => ((findall (cleanText text)).filterMap decimalOfMatch).getLast?))) ∧
    parse_price "1.500,00 45,00 12.000,00".toList = some ⟨4500, 2⟩ ∧
    parse_price "1.500,00 12.000,00".toList = some ⟨1200000, 2⟩ :=
  ⟨parse_price_find, by decide, by decide⟩

/-- C7.  On digit-free text the normalizer returns the not-found signal
(`None`), never an exception; and the `"Price parse error"` sentinel
appears exactly when a located candidate fails decimal conversion. -/
theorem c7_notfound_vs_parse_error :
    (∀ text : List Char, (∀ c ∈ text, c.isDigit = false) → parse_price text = none) ∧
    (∀ s : AmazonSoup,
      amazonPrice s = "Price parse error" ↔
        ∃ raw, amazonOffscreen s = some raw ∧
          pyDecimal? (amazonNormalize (amazonClean raw.toList)) = none) :=
  ⟨fun _ h => parse_price_none_of_no_digit h, amazonPrice_parse_error_iff⟩

/-- Witness for C7: the digit-free text `"ciao €"` yields `None`, and a
soup whose only offscreen text is `"€"` (which cleans to the empty string)
yields the parse-error sentinel. -/
theorem c7_notfound_vs_parse_error_witness :
    parse_price "ciao €".toList = none ∧
    amazonPrice ⟨none, none, none, none, some "€", none, none⟩ = "Price parse error" :=
  ⟨c7_notfound_vs_parse_error.1 "ciao €".toList (by decide),
    (c7_notfound_vs_parse_error.2 ⟨none, none, none, none, some "€", none, none⟩).mpr
      ⟨"€", by decide, by decide⟩⟩

/-- C10.  The Phoneclick and Teknozone extractors can only produce a
currency-formatted price or `"Price not found"`: every candidate their
regexes locate converts successfully (to a two-decimal value), so their
conversion-failure branches are unreachable and neither ever emits
`"Price parse error"`. -/
theorem c10_no_parse_error_outside_amazon :
    (∀ (text m : List Char), m ∈ findall (cleanText text) →
      ∃ d : Dec, decimalOfMatch m = some d ∧ d.scale = 2) ∧
    (∀ (ts m : List Char), searchEuroPrice ts = some m →
      ∃ d : Dec, pyDecimal? (m.map (fun c => if c = ',' then '.' else c)) = some d ∧
        d.scale = 2) ∧
    (∀ (cfg : SiteConfig) (s : PhoneclickSoup),
      ((scrape_phoneclick cfg s).price = "Price not found" ∨
        ∃ d : Dec, (scrape_phoneclick cfg s).price = "€" ++ formatDot2 d) ∧
      (scrape_phoneclick cfg s).price ≠ "Price parse error") ∧
    (∀ (cfg : SiteConfig) (s : TeknozoneSoup) (r : ProductRecord),
      scrape_teknozone cfg s = some r →
      (r.price = "Price not found" ∨ ∃ d : Dec, r.price = "€" ++ formatDot2 d) ∧
      r.price ≠ "Price parse error") := by
  refine ⟨?_, ?_, ?_, ?_⟩
  · intro text m hm
    obtain ⟨cs0, r, hmf⟩ := findall_mem hm
    exact decimalOfMatch_of_matchFrom hmf
  · intro ts m hs
    exact teknoConv_of_search hs
  · intro cfg s
    have hstep : (scrape_phoneclick cfg s).price = "Price not found" ∨
        ∃ d : Dec, (scrape_phoneclick cfg s).price = "€" ++ formatDot2 d := by
      unfold scrape_phoneclick
      rcases phoneclickPriceOpt s with _ | v
      · exact Or.inl rfl
      · exact Or.inr ⟨v, rfl⟩
    refine ⟨hstep, ?_⟩
    rcases hstep with hp | ⟨d, hp⟩
    · rw [hp]; decide
    · rw [hp]; exact euro_ne_parse_error _
  · intro cfg s r hr
    have hstep : r.price = "Price not found" ∨ ∃ d : Dec, r.price = "€" ++ formatDot2 d :=
      teknoLoop_price cfg (teknoTitle s) s.textsWithEuro r hr
    refine ⟨hstep, ?_⟩
    rcases hstep with hp | ⟨d, hp⟩
    · rw [hp]; decide
    · rw [hp]; exact euro_ne_parse_error _

/-- Witness for C10 at concrete inputs: a matched candidate converts, and
concrete teknozone/phoneclick soups produce their two legal price shapes. -/
theorem c10_no_parse_error_outside_amazon_witness :
    (∃ d : Dec, decimalOfMatch "1.234,56".toList = some d ∧ d.scale = 2) ∧
    (∃ d : Dec, pyDecimal? (("1.23".toList).map (fun c => if c = ',' then '.' else c)) =
      some d ∧ d.scale = 2) ∧
    ((scrape_phoneclick ⟨"phoneclick.it", "u"⟩ ⟨none, none, none, []⟩).price =
        "Price not found" ∨
      ∃ d : Dec, (scrape_phoneclick ⟨"phoneclick.it", "u"⟩ ⟨none, none, none, []⟩).price =
        "€" ++ formatDot2 d) :=
  ⟨c10_no_parse_error_outside_amazon.1 "1.234,56".toList "1.234,56".toList (by decide),
    c10_no_parse_error_outside_amazon.2.1 "€1.234,56".toList "1.23".toList (by decide),
    (c10_no_parse_error_outside_amazon.2.2.1 ⟨"phoneclick.it", "u"⟩
      ⟨none, none, none, []⟩).1⟩

/-! ## C2: locale disambiguation -/

/-- C2 counterexample.  On `"1,234.56"` (US format: rightmost separator is
the period) the code does not treat the rightmost separator as the decimal
point: it strips the periods and converts the comma, yielding `1.23456`
instead of the claim's `1234.56` — numerically a different (smaller)
value. -/
theorem c2_counterexample :
    amazonNormalize "1,234.56".toList ≠
      rightmostSeparatorNormalize "1,234.56".toList ∧
    pyDecimal? (amazonNormalize "1,234.56".toList) = some ⟨123456, 5⟩ ∧
    pyDecimal? (rightmostSeparatorNormalize "1,234.56".toList) = some ⟨123456, 2⟩ ∧
    Dec.lt ⟨123456, 5⟩ ⟨123456, 2⟩ = true := by
  decide

/-- C2 as amended.  Whenever a comma is present the code treats the comma
as the decimal separator and strips every period (regardless of which
separator is rightmost); with no comma the string is left as is, so a lone
period is the decimal separator.  In the Phoneclick regex path the claim
holds as stated: every `PRICE_REGEX` candidate has exactly one comma, and
it is the rightmost separator (no separator follows it). -/
theorem c2_amended_comma_decimal :
    (∀ cleaned : List Char, cleaned.contains ',' = true →
      amazonNormalize cleaned = commaDecimalNormalize cleaned) ∧
    (∀ cleaned : List Char, cleaned.contains ',' = false →
      amazonNormalize cleaned = cleaned) ∧
    (∀ text m : List Char, m ∈ findall text →
      ∃ a cc, m = a ++ ',' :: cc ∧ ',' ∉ a ∧ ',' ∉ cc ∧ '.' ∉ cc) := by
  refine ⟨?_, ?_, ?_⟩
  · intro cleaned hc
    unfold amazonNormalize commaDecimalNormalize
    rcases hd : cleaned.contains '.' with _ | _
    · rw [if_neg (by simp only [hc, hd]; decide), if_pos hc]
      have hnodot : cleaned.filter (fun c => c != '.') = cleaned := by
        apply List.filter_eq_self.mpr
        intro c hcm
        have hcd : c ≠ '.' := by
          intro hcd
          subst hcd
          have : cleaned.contains '.' = true := by simpa using hcm
          rw [this] at hd
          exact Bool.noConfusion hd
        simpa using hcd
      rw [hnodot]
    · rw [if_pos (by simp only [hc, hd]; decide)]
  · intro cleaned hc
    unfold amazonNormalize
    rw [if_neg (by simp only [hc, Bool.false_and]; decide),
      if_neg (by simp only [hc]; decide)]
  · intro text m hm
    obtain ⟨cs0, r, hmf⟩ := findallGo_mem hm
    obtain ⟨g0, gs, cc, rfl, _, _, hg0, hgs, _, hccd⟩ := matchFrom_shape hmf
    refine ⟨g0 ++ dotGroups gs, cc, by simp, ?_, ?_, ?_⟩
    · intro hmem
      rcases List.mem_append.mp hmem with hmem | hmem
      · exact ne_comma_of_digit (hg0 _ hmem) rfl
      · obtain ⟨g, hg, hcg⟩ := List.mem_flatMap.mp hmem
        rcases List.mem_cons.mp hcg with hdot | hcg2
        · exact absurd hdot.symm (by decide)
        · exact ne_comma_of_digit ((hgs g hg).2 _ hcg2) rfl
    · intro hmem
      exact ne_comma_of_digit (hccd _ hmem) rfl
    · intro hmem
      exact ne_dot_of_digit (hccd _ hmem) rfl

/-- Witness for C2 (amended) at concrete inputs: a European-format string
with a comma, a plain period-decimal string, and the sole `PRICE_REGEX`
candidate of `"x 1.234,56 y"`. -/
theorem c2_amended_comma_decimal_witness :
    amazonNormalize "1.234,56".toList = commaDecimalNormalize "1.234,56".toList ∧
    amazonNormalize "123.45".toList = "123.45".toList ∧
    (∃ a cc, "1.234,56".toList = a ++ ',' :: cc ∧ ',' ∉ a ∧ ',' ∉ cc ∧ '.' ∉ cc) :=
  ⟨c2_amended_comma_decimal.1 "1.234,56".toList (by decide),
    c2_amended_comma_decimal.2.1 "123.45".toList (by decide),
    c2_amended_comma_decimal.2.2 "x 1.234,56 y".toList "1.234,56".toList (by decide)⟩

/-! ## C4 and C5: record invariants and counterexamples -/

/-- A truthy optional string defaults to a non-empty string. -/
theorem strTruthy_getD {o : Option String} (h : strTruthy o = true) : o.getD "" ≠ "" := by
  match o with
  | none => exact absurd h (by decide)
  | some str =>
    intro he
    simp only [Option.getD_some] at he
    rw [he] at h
    exact absurd h (by decide)

/-- The Amazon title is never the empty string: every fallback step is
guarded by `if not title`, and the final guard replaces a falsy result
with the sentinel. -/
theorem amazonTitle_ne_empty (s : AmazonSoup) : amazonTitle s ≠ "" := by
  unfold amazonTitle
  rcases h : strTruthy (amazonTitleChain s) with _ | _
  · rw [if_neg (by decide)]
    decide
  · rw [if_pos rfl]
    exact strTruthy_getD h

/-- The Amazon price is one of the two sentinels or currency-formatted;
in particular it is never empty. -/
theorem amazonPrice_ne_empty (s : AmazonSoup) : amazonPrice s ≠ "" := by
  rcases h : amazonOffscreen s with _ | raw
  · rw [amazonPrice_none h]; decide
  · rw [amazonPrice_some h]
    rcases h2 : pyDecimal? (amazonNormalize (amazonClean raw.toList)) with _ | d
    · decide
    · exact euro_ne_empty _

/-- Any record the teknozone loop returns carries the title it was given. -/
theorem teknoLoop_title (cfg : SiteConfig) (title : String) :
    ∀ (l : List String) (r : ProductRecord), teknoLoop cfg title l = some r →
      r.title = title := by
  intro l
  induction l with
  | nil =>
    intro r hr
    unfold teknoLoop at hr
    obtain rfl := Option.some.inj hr
    rfl
  | cons ts rest ih =>
    intro r hr
    rcases hs : searchEuroPrice ts.toList with _ | g
    · apply ih
      unfold teknoLoop at hr
      rw [hs] at hr
      exact hr
    · obtain ⟨d, hd, _⟩ := teknoConv_of_search hs
      unfold teknoLoop at hr
      rw [hs] at hr
      have hr2 : (match pyDecimal? (g.map (fun c => if c = ',' then '.' else c)) with
          | some d => some (ProductRecord.mk cfg.site title ("€" ++ formatDot2 d) cfg.url)
          | none => none) = some r := hr
      rw [hd] at hr2
      obtain rfl := Option.some.inj hr2
      rfl

/-- C4 counterexample.  A Phoneclick page whose `h1.caratteretitolo`
element exists but has empty text produces a `ProductRecord` whose title
field is the empty string: the title strategy wins by element presence,
not by yielding non-empty text. -/
theorem c4_counterexample :
    (scrape_phoneclick ⟨"phoneclick.it", "u"⟩ ⟨some "", none, none, []⟩).title = "" := by
  decide

/-- C4 as amended.  Every `ProductRecord` has a non-empty price field, and
the Amazon extractor also guarantees a non-empty title; but Phoneclick and
Teknozone select the title element by presence, so their title is either
the sentinel or exactly the selected element's text — which may be
empty. -/
theorem c4_amended_nonempty_price :
    (∀ (cfg : SiteConfig) (s : PhoneclickSoup),
      (scrape_phoneclick cfg s).price ≠ "" ∧
      ((scrape_phoneclick cfg s).title = "Title not found" ∨
        (s.h1Caratteretitolo.orElse fun _ => s.h1) = some (scrape_phoneclick cfg s).title)) ∧
    (∀ (cfg : SiteConfig) (s : TeknozoneSoup) (r : ProductRecord),
      scrape_teknozone cfg s = some r →
      r.price ≠ "" ∧
      (r.title = "Title not found" ∨
        (s.h1ProductTitle.orElse fun _ => s.h1) = some r.title)) ∧
    (∀ (cfg : SiteConfig) (html : String) (s : AmazonSoup) (r : ProductRecord),
      scrape_amazon cfg html s = some r → r.title ≠ "" ∧ r.price ≠ "") := by
  refine ⟨?_, ?_, ?_⟩
  · intro cfg s
    constructor
    · show (match phoneclickPriceOpt s with
        | some v => "€" ++ formatDot2 v
        | none => "Price not found") ≠ ""
      rcases phoneclickPriceOpt s with _ | v
      · decide
      · exact euro_ne_empty _
    · show phoneclickTitle s = "Title not found" ∨
        (s.h1Caratteretitolo.orElse fun _ => s.h1) = some (phoneclickTitle s)
      unfold phoneclickTitle
      rcases h : s.h1Caratteretitolo.orElse fun _ => s.h1 with _ | t
      · exact Or.inl rfl
      · exact Or.inr rfl
  · intro cfg s r hr
    constructor
    · rcases teknoLoop_price cfg (teknoTitle s) s.textsWithEuro r hr with hp | ⟨d, hp⟩
      · rw [hp]; decide
      · rw [hp]; exact euro_ne_empty _
    · have ht := teknoLoop_title cfg (teknoTitle s) s.textsWithEuro r hr
      rw [ht]
      unfold teknoTitle
      rcases h : s.h1ProductTitle.orElse fun _ => s.h1 with _ | t
      · exact Or.inl rfl
      · exact Or.inr rfl
  · intro cfg html s r hr
    unfold scrape_amazon at hr
    split at hr
    · exact Option.noConfusion hr
    · obtain rfl := Option.some.inj hr
      exact ⟨amazonTitle_ne_empty s, amazonPrice_ne_empty s⟩

/-- Witness for C4 (amended) at concrete inputs. -/
theorem c4_amended_nonempty_price_witness :
    ((scrape_phoneclick ⟨"phoneclick.it", "u"⟩ ⟨none, some "T", none, []⟩).price ≠ "" ∧
      ((scrape_phoneclick ⟨"phoneclick.it", "u"⟩ ⟨none, some "T", none, []⟩).title =
          "Title not found" ∨
        ((⟨none, some "T", none, []⟩ : PhoneclickSoup).h1Caratteretitolo.orElse
            fun _ => (⟨none, some "T", none, []⟩ : PhoneclickSoup).h1) =
          some (scrape_phoneclick ⟨"phoneclick.it", "u"⟩ ⟨none, some "T", none, []⟩).title)) ∧
    ((⟨"teknozone.it", "T", "Price not found", "u"⟩ : ProductRecord).price ≠ "" ∧
      ((⟨"teknozone.it", "T", "Price not found", "u"⟩ : ProductRecord).title =
          "Title not found" ∨
        ((⟨some "T", none, []⟩ : TeknozoneSoup).h1ProductTitle.orElse
            fun _ => (⟨some "T", none, []⟩ : TeknozoneSoup).h1) =
          some (⟨"teknozone.it", "T", "Price not found", "u"⟩ : ProductRecord).title)) ∧
    ((⟨"amazon.it", "Title not found", "Price not found", "u"⟩ : ProductRecord).title ≠ "" ∧
      (⟨"amazon.it", "Title not found", "Price not found", "u"⟩ : ProductRecord).price ≠ "") :=
  ⟨c4_amended_nonempty_price.1 ⟨"phoneclick.it", "u"⟩ ⟨none, some "T", none, []⟩,
    c4_amended_nonempty_price.2.1 ⟨"teknozone.it", "u"⟩ ⟨some "T", none, []⟩
      ⟨"teknozone.it", "T", "Price not found", "u"⟩ (by decide),
    c4_amended_nonempty_price.2.2 ⟨"amazon.it", "u"⟩ "x"
      ⟨none, none, none, none, none, none, none⟩
      ⟨"amazon.it", "Title not found", "Price not found", "u"⟩ (by decide)⟩

/-- C5 counterexample.  The Amazon extractor given empty markup — a
successfully fetched response body `""`, not a fetch failure — returns no
record at all (`if not html: return None`), contradicting "only a fetch
failure upstream prevents a record". -/
theorem c5_counterexample :
    scrape_amazon ⟨"amazon.it", "u"⟩ "" ⟨none, none, none, none, none, none, none⟩ =
      none := by
  decide

/-- C5 as amended.  For every non-empty markup, Amazon returns a complete
record — with both sentinels when every selector misses — and never an
exception; Phoneclick always returns a record; Teknozone always returns a
record and never an exception (its unguarded `Decimal` conversion cannot
fail); only Amazon on empty markup yields no record. -/
theorem c5_amended_always_record :
    (∀ (cfg : SiteConfig) (html : String) (s : AmazonSoup), html ≠ "" →
      scrape_amazon cfg html s = some ⟨cfg.site, amazonTitle s, amazonPrice s, cfg.url⟩) ∧
    (∀ (cfg : SiteConfig) (html : String), html ≠ "" →
      scrape_amazon cfg html ⟨none, none, none, none, none, none, none⟩ =
        some ⟨cfg.site, "Title not found", "Price not found", cfg.url⟩) ∧
    (∀ cfg : SiteConfig,
      scrape_phoneclick cfg ⟨none, none, none, []⟩ =
        ⟨cfg.site, "Title not found", "Price not found", cfg.url⟩) ∧
    (∀ (cfg : SiteConfig) (s : TeknozoneSoup), ∃ r, scrape_teknozone cfg s = some r) ∧
    (∀ cfg : SiteConfig,
      scrape_teknozone cfg ⟨none, none, []⟩ =
        some ⟨cfg.site, "Title not found", "Price not found", cfg.url⟩) := by
  have hama : ∀ (cfg : SiteConfig) (html : String) (s : AmazonSoup), html ≠ "" →
      scrape_amazon cfg html s = some ⟨cfg.site, amazonTitle s, amazonPrice s, cfg.url⟩ := by
    intro cfg html s hne
    have hemp : html.isEmpty = false := by
      rcases hq : html.isEmpty with _ | _
      · rfl
      · exact absurd ((String.isEmpty_iff html).mp hq) hne
    unfold scrape_amazon
    rw [if_neg (by simp [hemp])]
  refine ⟨hama, ?_, ?_, ?_, ?_⟩
  · intro cfg html hne
    rw [hama cfg html _ hne]
    have h1 : amazonTitle ⟨none, none, none, none, none, none, none⟩ =
        "Title not found" := by decide
    have h2 : amazonPrice ⟨none, none, none, none, none, none, none⟩ =
        "Price not found" := by decide
    rw [h1, h2]
  · intro cfg
    rfl
  · intro cfg s
    exact teknoLoop_isSome cfg (teknoTitle s) s.textsWithEuro
  · intro cfg
    rfl

/-- Witness for C5 (amended) at a concrete non-empty markup. -/
theorem c5_amended_always_record_witness :
    scrape_amazon ⟨"amazon.it", "u"⟩ "<html></html>"
        ⟨none, none, none, none, none, none, none⟩ =
      some ⟨"amazon.it", "Title not found", "Price not found", "u"⟩ ∧
    (∃ r, scrape_teknozone ⟨"teknozone.it", "u"⟩ ⟨none, none, ["€1,99"]⟩ = some r) :=
  ⟨c5_amended_always_record.2.1 ⟨"amazon.it", "u"⟩ "<html></html>" (by decide),
    c5_amended_always_record.2.2.2.1 ⟨"teknozone.it", "u"⟩ ⟨none, none, ["€1,99"]⟩⟩

/-! ## C6: the European rendering of a two-decimal value -/

theorem digitChar_isDigit (d : Nat) : (digitChar d).isDigit = true := by
  unfold digitChar
  split <;> decide

theorem digitVal_digitChar {d : Nat} (h : d < 10) : digitVal (digitChar d) = d := by
  interval_cases d <;> decide

theorem natOfDigits_append (a b : List Char) :
    natOfDigits (a ++ b) = natOfDigits a * 10 ^ b.length + natOfDigits b := by
  have key : ∀ (l : List Char) (acc : Nat),
      l.foldl (fun acc c => 10 * acc + digitVal c) acc =
        acc * 10 ^ l.length + natOfDigits l := by
    intro l
    induction l with
    | nil => intro acc; simp [natOfDigits]
    | cons c t ih =>
      intro acc
      have h1 : natOfDigits (c :: t) = digitVal c * 10 ^ t.length + natOfDigits t := by
        show (c :: t).foldl (fun acc c => 10 * acc + digitVal c) 0 = _
        rw [List.foldl_cons, ih]
        ring_nf
      rw [List.foldl_cons, ih, h1, List.length_cons]
      ring
  rw [natOfDigits, List.foldl_append]
  rw [show (a.foldl (fun acc c => 10 * acc + digitVal c) 0) = natOfDigits a from rfl]
  exact key b (natOfDigits a)

theorem natOfDigits_replicate_zero (j : Nat) :
    natOfDigits (List.replicate j '0') = 0 := by
  induction j with
  | zero => rfl
  | succ j ih =>
    have : List.replicate (j + 1) '0' = '0' :: List.replicate j '0' := rfl
    rw [this]
    have h2 : natOfDigits ('0' :: List.replicate j '0') =
        digitVal '0' * 10 ^ j + natOfDigits (List.replicate j '0') := by
      simp [natOfDigits, digitVal]
    rw [h2, ih]
    have hz : digitVal '0' = 0 := rfl
    rw [hz]
    ring

theorem natDigitsGo_allDigits : ∀ (fuel n : Nat), allDigits (natDigitsGo fuel n) := by
  intro fuel
  induction fuel with
  | zero => intro n c hc; exact absurd hc (List.not_mem_nil c)
  | succ fuel ih =>
    intro n c hc
    unfold natDigitsGo at hc
    split at hc
    · exact absurd hc (List.not_mem_nil c)
    · rcases List.mem_cons.mp hc with rfl | hc
      · exact digitChar_isDigit _
      · exact ih _ c hc

theorem natDigits_allDigits (n : Nat) : allDigits (natDigits n) := by
  unfold natDigits
  split
  · intro c hc
    rcases List.mem_cons.mp hc with rfl | hc
    · decide
    · exact absurd hc (List.not_mem_nil c)
  · intro c hc
    exact natDigitsGo_allDigits n n c (List.mem_reverse.mp hc)

theorem natDigits_ne_nil (n : Nat) : natDigits n ≠ [] := by
  unfold natDigits
  split
  · simp
  · rename_i hn
    obtain ⟨m, rfl⟩ : ∃ m, n = m + 1 := ⟨n - 1, by omega⟩
    rw [show natDigitsGo (m + 1) (m + 1) =
      if m + 1 = 0 then []
      else digitChar ((m + 1) % 10) :: natDigitsGo m ((m + 1) / 10) from rfl]
    rw [if_neg (by omega)]
    simp

theorem natOfDigits_natDigitsGo : ∀ (fuel n : Nat), n ≤ fuel →
    natOfDigits ((natDigitsGo fuel n).reverse) = n := by
  intro fuel
  induction fuel with
  | zero =>
    intro n hn
    have : n = 0 := by omega
    subst this
    rfl
  | succ fuel ih =>
    intro n hn
    unfold natDigitsGo
    rcases hz : n with _ | m
    · rfl
    · rw [if_neg (by omega)]
      rw [List.reverse_cons, natOfDigits_append]
      have hdiv : (m + 1) / 10 ≤ fuel := by
        have := Nat.div_lt_self (n := m + 1) (by omega) (by omega : 1 < 10)
        omega
      rw [ih ((m + 1) / 10) hdiv]
      have hd : natOfDigits [digitChar ((m + 1) % 10)] = (m + 1) % 10 := by
        show natOfDigits ([] ++ [digitChar ((m + 1) % 10)]) = _
        rw [natOfDigits_append]
        simp [natOfDigits, digitVal_digitChar (Nat.mod_lt _ (by omega : 0 < 10))]
      rw [hd]
      simp only [List.length_singleton, pow_one]
      omega

theorem natOfDigits_natDigits (n : Nat) : natOfDigits (natDigits n) = n := by
  unfold natDigits
  split
  · rename_i h
    subst h
    rfl
  · exact natOfDigits_natDigitsGo n n le_rfl

theorem natDigitsGo_length_le : ∀ (fuel n k : Nat), n ≤ fuel → n < 10 ^ k →
    (natDigitsGo fuel n).length ≤ k := by
  intro fuel
  induction fuel with
  | zero => intro n k _ _; simp [natDigitsGo]
  | succ fuel ih =>
    intro n k hn hk
    unfold natDigitsGo
    rcases hz : n with _ | m
    · simp
    · rw [if_neg (by omega)]
      have hk1 : 1 ≤ k := by
        rcases Nat.eq_zero_or_pos k with rfl | h
        · simp at hk; omega
        · exact h
      have hdiv : (m + 1) / 10 ≤ fuel := by
        have := Nat.div_lt_self (n := m + 1) (by omega) (by omega : 1 < 10)
        omega
      have hpow : (m + 1) / 10 < 10 ^ (k - 1) := by
        rw [Nat.div_lt_iff_lt_mul (by omega : 0 < 10)]
        have : 10 ^ (k - 1) * 10 = 10 ^ k := by
          rw [← pow_succ]
          congr 1
          omega
        omega
      have := ih ((m + 1) / 10) (k - 1) hdiv hpow
      simp only [List.length_cons]
      omega

theorem natDigits_length_le {n k : Nat} (hk : 1 ≤ k) (h : n < 10 ^ k) :
    (natDigits n).length ≤ k := by
  unfold natDigits
  split
  · simpa using hk
  · rw [List.length_reverse]
    exact natDigitsGo_length_le n n k le_rfl h

theorem pad3_length {ds : List Char} (h : ds.length ≤ 3) : (pad3 ds).length = 3 := by
  unfold pad3
  rw [List.length_append, List.length_replicate]
  omega

theorem pad3_allDigits {ds : List Char} (h : allDigits ds) : allDigits (pad3 ds) := by
  intro c hc
  rcases List.mem_append.mp hc with hc | hc
  · rw [List.eq_of_mem_replicate hc]
    decide
  · exact h c hc

theorem natOfDigits_pad3 (ds : List Char) : natOfDigits (pad3 ds) = natOfDigits ds := by
  unfold pad3
  rw [natOfDigits_append, natOfDigits_replicate_zero]
  simp

theorem euroGroupsGo_spec : ∀ (fuel n : Nat), n ≤ fuel →
    ∃ g0 grest, euroGroupsGo fuel n = g0 :: grest ∧
      1 ≤ g0.length ∧ g0.length ≤ 3 ∧ allDigits g0 ∧
      (∀ g ∈ grest, g.length = 3 ∧ allDigits g) ∧
      natOfDigits (g0 :: grest).flatten = n := by
  have hbase : ∀ n : Nat, n < 1000 →
      ∃ g0 grest, [natDigits n] = g0 :: grest ∧
        1 ≤ g0.length ∧ g0.length ≤ 3 ∧ allDigits g0 ∧
        (∀ g ∈ grest, g.length = 3 ∧ allDigits g) ∧
        natOfDigits (g0 :: grest).flatten = n := by
    intro n hn
    refine ⟨natDigits n, [], rfl, ?_, ?_, natDigits_allDigits n, by simp, ?_⟩
    · have := natDigits_ne_nil n
      have := List.length_pos.mpr this
      omega
    · exact natDigits_length_le (by omega) (by simpa using hn)
    · simpa using natOfDigits_natDigits n
  intro fuel
  induction fuel with
  | zero =>
    intro n hn
    have hz : n = 0 := by omega
    subst hz
    exact hbase 0 (by omega)
  | succ fuel ih =>
    intro n hn
    unfold euroGroupsGo
    rcases hlt : decide (n < 1000) with _ | _
    · rw [if_neg (by simpa using hlt)]
      have hge : 1000 ≤ n := by simpa using hlt
      have hdiv : n / 1000 ≤ fuel := by
        have := Nat.div_lt_self (n := n) (by omega) (by omega : 1 < 1000)
        omega
      obtain ⟨g0, grest, hgo, h1, h2, h3, h4, h5⟩ := ih (n / 1000) hdiv
      have hmodlen : (natDigits (n % 1000)).length ≤ 3 :=
        natDigits_length_le (by omega) (by
          have := Nat.mod_lt n (by omega : 0 < 1000)
          simpa using this)
      refine ⟨g0, grest ++ [pad3 (natDigits (n % 1000))], by rw [hgo]; simp,
        h1, h2, h3, ?_, ?_⟩
      · intro g hg
        rcases List.mem_append.mp hg with hg | hg
        · exact h4 g hg
        · rw [List.mem_singleton.mp hg]
          exact ⟨pad3_length hmodlen, pad3_allDigits (natDigits_allDigits _)⟩
      · have hflat : (g0 :: (grest ++ [pad3 (natDigits (n % 1000))])).flatten =
            (g0 :: grest).flatten ++ pad3 (natDigits (n % 1000)) := by
          simp
        rw [hflat, natOfDigits_append, h5, pad3_length hmodlen, natOfDigits_pad3,
          natOfDigits_natDigits]
        have := Nat.div_add_mod n 1000
        have hp : (10 : Nat) ^ 3 = 1000 := by norm_num
        rw [hp]
        omega
    · rw [if_pos (by simpa using hlt)]
      exact hbase n (by simpa using hlt)

theorem euroGroups_spec (n : Nat) :
    ∃ g0 grest, euroGroups n = g0 :: grest ∧
      1 ≤ g0.length ∧ g0.length ≤ 3 ∧ allDigits g0 ∧
      (∀ g ∈ grest, g.length = 3 ∧ allDigits g) ∧
      natOfDigits (g0 :: grest).flatten = n :=
  euroGroupsGo_spec n n le_rfl

theorem dotJoin_eq (g0 : List Char) (gs : List (List Char)) :
    dotJoin (g0 :: gs) = g0 ++ dotGroups gs := by
  induction gs generalizing g0 with
  | nil => simp [dotJoin, dotGroups]
  | cons g2 t ih =>
    rw [show dotJoin (g0 :: g2 :: t) = g0 ++ '.' :: dotJoin (g2 :: t) from rfl, ih]
    simp [dotGroups]

theorem digit_ne {c x : Char} (h : c.isDigit = true) (hx : x.isDigit = false) :
    c ≠ x := by
  intro he
  rw [he] at h
  rw [h] at hx
  exact Bool.noConfusion hx

theorem starComma_full : ∀ (gs : List (List Char)),
    (∀ g ∈ gs, g.length = 3 ∧ allDigits g) →
    ∀ (a b : Char), a.isDigit = true → b.isDigit = true →
    starComma (dotGroups gs ++ ',' :: [a, b]) =
      some (dotGroups gs ++ ',' :: [a, b], []) := by
  intro gs
  induction gs with
  | nil =>
    intro _ a b ha hb
    show (if (a.isDigit && b.isDigit) = true then
      some (([',', a, b] : List Char), ([] : List Char)) else none) = some ([',', a, b], [])
    rw [if_pos (by simp [ha, hb])]
  | cons g gs ih =>
    intro hgs a b ha hb
    obtain ⟨hlen, hdig⟩ := hgs g (List.mem_cons_self g gs)
    obtain ⟨d1, d2, d3, rfl⟩ := List.length_eq_three.mp hlen
    have hd1 : d1.isDigit = true := hdig d1 (by simp)
    have hd2 : d2.isDigit = true := hdig d2 (by simp)
    have hd3 : d3.isDigit = true := hdig d3 (by simp)
    have hrest := ih (fun g hg => hgs g (List.mem_cons_of_mem _ hg)) a b ha hb
    show (if (d1.isDigit && d2.isDigit && d3.isDigit) = true then
        match starComma (dotGroups gs ++ ',' :: [a, b]) with
        | some (m, r) => some ('.' :: d1 :: d2 :: d3 :: m, r)
        | none => tryComma ('.' :: d1 :: d2 :: d3 :: (dotGroups gs ++ ',' :: [a, b]))
      else tryComma ('.' :: d1 :: d2 :: d3 :: (dotGroups gs ++ ',' :: [a, b]))) =
      some ('.' :: d1 :: d2 :: d3 :: (dotGroups gs ++ ',' :: [a, b]), [])
    rw [if_pos (by simp [hd1, hd2, hd3]), hrest]

theorem tryLead_full {g0 tail : List Char} (hd : allDigits g0)
    (hs : starComma tail = some (tail, [])) :
    tryLead g0.length (g0 ++ tail) = some (g0 ++ tail, []) := by
  unfold tryLead
  rw [List.take_left, List.drop_left]
  rw [if_pos ?_]
  · rw [hs]
  · simp only [decide_eq_true_eq, Bool.and_eq_true, List.all_eq_true]
    exact ⟨by simp, fun c hc => hd c hc⟩

theorem tryLead_sep_fail {n : Nat} {g0 tail2 : List Char} {s : Char}
    (hlen : g0.length < n) (hs : s.isDigit = false) :
    tryLead n (g0 ++ s :: tail2) = none := by
  unfold tryLead
  rw [if_neg ?_]
  have hmem : s ∈ (g0 ++ s :: tail2).take n := by
    rw [List.take_append_eq_append_take]
    refine List.mem_append.mpr (Or.inr ?_)
    obtain ⟨k, hk⟩ : ∃ k, n - g0.length = k + 1 := ⟨n - g0.length - 1, by omega⟩
    rw [hk, List.take_succ_cons]
    exact List.mem_cons_self _ _
  intro hcond
  simp only [Bool.and_eq_true, List.all_eq_true] at hcond
  have := hcond.2 s hmem
  rw [hs] at this
  exact Bool.noConfusion this

theorem matchFrom_full {g0 tail2 : List Char} {s : Char}
    (h1 : 1 ≤ g0.length) (h2 : g0.length ≤ 3) (hd : allDigits g0)
    (hsd : s.isDigit = false)
    (hstar : starComma (s :: tail2) = some (s :: tail2, [])) :
    matchFrom (g0 ++ s :: tail2) = some (g0 ++ s :: tail2, []) := by
  have hfull := tryLead_full hd hstar
  unfold matchFrom
  have hcase : g0.length = 1 ∨ g0.length = 2 ∨ g0.length = 3 := by omega
  rcases hcase with h | h | h
  · rw [tryLead_sep_fail (n := 3) (by omega) hsd,
      tryLead_sep_fail (n := 2) (by omega) hsd]
    rw [h] at hfull
    simp [Option.orElse, hfull]
  · rw [tryLead_sep_fail (n := 3) (by omega) hsd]
    rw [h] at hfull
    simp [Option.orElse, hfull]
  · rw [h] at hfull
    simp [Option.orElse, hfull]

/-! ### Cleaning is the identity on rendered prices -/

theorem replaceNbsp_eq_self {l : List Char} (h : '&' ∉ l) : replaceNbsp l = l := by
  induction l using replaceNbsp.induct with
  | case1 rest ih => exact (h (List.mem_cons_self _ _)).elim
  | case2 c0 rest hne ih =>
    rw [replaceNbsp_cons_ne hne, ih (fun hm => h (List.mem_cons_of_mem _ hm))]
  | case3 => rfl

theorem dropWhile_eq_self_of_all {l : List Char} {p : Char → Bool}
    (h : ∀ c ∈ l, p c = false) : l.dropWhile p = l := by
  cases l with
  | nil => rfl
  | cons c t =>
    rw [List.dropWhile_cons, h c (List.mem_cons_self c t)]
    simp

theorem pyStrip_eq_self {l : List Char} (h : ∀ c ∈ l, c.isWhitespace = false) :
    pyStrip l = l := by
  unfold pyStrip
  rw [dropWhile_eq_self_of_all h,
    dropWhile_eq_self_of_all (fun c hc => h c (List.mem_reverse.mp hc))]
  exact List.reverse_reverse l

theorem isWhitespace_eq_false_of_sd {c : Char}
    (h : c.isDigit = true ∨ c = '.' ∨ c = ',') : c.isWhitespace = false := by
  rcases h with h | rfl | rfl
  · rcases hw : c.isWhitespace with _ | _
    · rfl
    · exfalso
      simp only [Char.isWhitespace, Bool.or_eq_true, decide_eq_true_eq] at hw
      rcases hw with ((rfl | rfl) | rfl) | rfl <;> exact absurd h (by decide)
  · rfl
  · rfl

theorem ne_of_sd {c x : Char} (h : c.isDigit = true ∨ c = '.' ∨ c = ',')
    (hx : x.isDigit = false) (hx2 : x ≠ '.') (hx3 : x ≠ ',') : c ≠ x := by
  rcases h with h | rfl | rfl
  · exact digit_ne h hx
  · exact fun he => hx2 he.symm
  · exact fun he => hx3 he.symm

/-- The `parse_price` cleaning step leaves a string of digits and
separators unchanged. -/
theorem cleanText_eq_self {l : List Char}
    (h : ∀ c ∈ l, c.isDigit = true ∨ c = '.' ∨ c = ',') : cleanText l = l := by
  unfold cleanText
  have hmap : l.map nbspToSpace = l := by
    have : l.map nbspToSpace = l.map id :=
      List.map_congr_left fun c hc => by
        unfold nbspToSpace
        rw [if_neg (ne_of_sd (h c hc) (by decide) (by decide) (by decide))]
        rfl
    rw [this, List.map_id]
  rw [hmap]
  have hamp : '&' ∉ l := by
    intro hm
    rcases h '&' hm with hh | hh | hh <;> exact absurd hh (by decide)
  rw [replaceNbsp_eq_self hamp]
  exact pyStrip_eq_self (fun c hc => isWhitespace_eq_false_of_sd (h c hc))

/-- The two fraction digits of the rendering have the value `cents`. -/
theorem natOfDigits_centsDigits {c : Nat} (hc : c < 100) :
    natOfDigits [digitChar (c / 10), digitChar (c % 10)] = c := by
  have e1 : natOfDigits [digitChar (c / 10)] = c / 10 := by
    show natOfDigits ([] ++ [digitChar (c / 10)]) = c / 10
    rw [natOfDigits_append]
    have := digitVal_digitChar (d := c / 10) (by omega)
    simp [natOfDigits, this]
  show natOfDigits ([digitChar (c / 10)] ++ [digitChar (c % 10)]) = c
  rw [natOfDigits_append, e1]
  have := digitVal_digitChar (d := c % 10) (by omega)
  have e2 : natOfDigits [digitChar (c % 10)] = c % 10 := by
    show natOfDigits ([] ++ [digitChar (c % 10)]) = c % 10
    rw [natOfDigits_append]
    simp [natOfDigits, this]
  rw [e2]
  simp only [List.length_singleton, pow_one]
  omega

/-- C6.  Round trip across locale formats: for every non-negative decimal
value with up to two decimal digits — parametrized as
`intPart + cents/100` with `cents < 100` — normalizing its
European-formatted rendering (thousands periods, decimal comma) returns
exactly that value, as the two-decimal `Decimal` with coefficient
`intPart * 100 + cents`. -/
theorem c6_euro_round_trip (n c : Nat) (hc : c < 100) :
    parse_price (euroFormat n c) = some ⟨n * 100 + c, 2⟩ ∧
    Dec.toRat ⟨n * 100 + c, 2⟩ = (n : ℚ) + (c : ℚ) / 100 := by
  constructor
  · obtain ⟨g0, grest, hgrp, h1, h2, h3, h4, h5⟩ := euroGroups_spec n
    set cc : List Char := [digitChar (c / 10), digitChar (c % 10)] with hccdef
    have hccd : allDigits cc :=
      allDigits_cons (digitChar_isDigit _)
        (allDigits_cons (digitChar_isDigit _) allDigits_nil)
    have hccval : natOfDigits cc = c := natOfDigits_centsDigits hc
    have hw : euroFormat n c = g0 ++ (dotGroups grest ++ ',' :: cc) := by
      unfold euroFormat
      rw [hgrp, dotJoin_eq]
      simp
    have hstar : starComma (dotGroups grest ++ ',' :: cc) =
        some (dotGroups grest ++ ',' :: cc, []) :=
      starComma_full grest h4 _ _ (digitChar_isDigit _) (digitChar_isDigit _)
    have hsplit : ∃ s tail2, dotGroups grest ++ ',' :: cc = s :: tail2 ∧
        s.isDigit = false := by
      cases grest with
      | nil => exact ⟨',', cc, rfl, by decide⟩
      | cons g t =>
        obtain ⟨d1, d2, d3, rfl⟩ := List.length_eq_three.mp
          (h4 _ (List.mem_cons_self _ _)).1
        exact ⟨'.', d1 :: d2 :: d3 :: (dotGroups t ++ ',' :: cc),
          by simp [dotGroups], by decide⟩
    obtain ⟨s, tail2, hst, hsd⟩ := hsplit
    have hmf : matchFrom (g0 ++ s :: tail2) = some (g0 ++ s :: tail2, []) :=
      matchFrom_full h1 h2 h3 hsd (hst ▸ hstar)
    have hwhole : euroFormat n c = g0 ++ s :: tail2 := by rw [hw, hst]
    have hchars : ∀ x ∈ euroFormat n c, x.isDigit = true ∨ x = '.' ∨ x = ',' := by
      intro x hx
      rw [hw] at hx
      rcases List.mem_append.mp hx with hx | hx
      · exact Or.inl (h3 x hx)
      · rcases List.mem_append.mp hx with hx | hx
        · obtain ⟨g, hg, hcg⟩ := List.mem_flatMap.mp hx
          rcases List.mem_cons.mp hcg with rfl | hcg2
          · exact Or.inr (Or.inl rfl)
          · exact Or.inl ((h4 g hg).2 x hcg2)
        · rcases List.mem_cons.mp hx with rfl | hx
          · exact Or.inr (Or.inr rfl)
          · exact Or.inl (hccd x hx)
    have hclean : cleanText (euroFormat n c) = euroFormat n c := cleanText_eq_self hchars
    obtain ⟨gh, gt, rfl⟩ : ∃ gh gt, g0 = gh :: gt := by
      cases g0 with
      | nil => simp at h1
      | cons gh gt => exact ⟨gh, gt, rfl⟩
    have hfind : findall (euroFormat n c) = [euroFormat n c] := by
      rw [hwhole]
      show findall (gh :: (gt ++ s :: tail2)) = _
      rw [findall_cons_match (by simpa using hmf)]
      rw [show findall [] = [] from rfl]
      simp
    have hdm : decimalOfMatch (euroFormat n c) = some ⟨n * 100 + c, 2⟩ := by
      rw [hw]
      rw [show (gh :: gt) ++ (dotGroups grest ++ ',' :: cc) =
        (gh :: gt) ++ dotGroups grest ++ ',' :: cc from by simp]
      rw [decimalOfMatch_euro h3 (fun g hg => (h4 g hg).2) hccd (by simp [hccdef])]
      have hflat : natOfDigits ((gh :: gt) ++ grest.flatten) = n := by
        simpa using h5
      rw [show cc.length = 2 from by simp [hccdef], hflat, hccval]
      norm_num
    unfold parse_price
    rw [hclean, hfind]
    show (match [euroFormat n c].getLast? with
      | none => none
      | some lastM =>
        match parsePriceLoop [euroFormat n c].reverse with
        | some v => some v
        | none => decimalOfMatch lastM) = some ⟨n * 100 + c, 2⟩
    rw [show [euroFormat n c].getLast? = some (euroFormat n c) from rfl,
      show [euroFormat n c].reverse = [euroFormat n c] from rfl]
    unfold parsePriceLoop
    rw [hdm]
    show (match (if Dec.lt ⟨n * 100 + c, 2⟩ ⟨1000, 0⟩ = true then
        some (⟨n * 100 + c, 2⟩ : Dec) else parsePriceLoop []) with
      | some v => some v
      | none => decimalOfMatch (euroFormat n c)) = some ⟨n * 100 + c, 2⟩
    rcases hlt : Dec.lt ⟨n * 100 + c, 2⟩ ⟨1000, 0⟩ with _ | _
    · rw [if_neg (by simp)]
      rw [show parsePriceLoop ([] : List (List Char)) = none from rfl]
      show decimalOfMatch (euroFormat n c) = some ⟨n * 100 + c, 2⟩
      exact hdm
    · rw [if_pos rfl]
  · show ((n * 100 + c : ℕ) : ℚ) / (10 : ℚ) ^ (2 : ℕ) = (n : ℚ) + (c : ℚ) / 100
    push_cast
    ring

/-- Witness for C6 at `1234,56`: normalizing `"1.234,56"` gives back
exactly `1234.56`. -/
theorem c6_euro_round_trip_witness :
    parse_price (euroFormat 1234 56) = some ⟨1234 * 100 + 56, 2⟩ ∧
    Dec.toRat ⟨1234 * 100 + 56, 2⟩ = (1234 : ℚ) + (56 : ℚ) / 100 :=
  c6_euro_round_trip 1234 56 (by decide)

end PriceTracker
